import Mathlib

/-!
Shallow embedding of the `primes` crate (src/lib.rs): a trial-division prime
generator with a growable cache, binary-search queries over the cache, lazy
iterators, and stateless factorization helpers.

Loops of the source that are only guaranteed to terminate under the cache
invariant are embedded with an explicit fuel parameter and return `Option`;
`none` models non-termination within the given fuel (or a panic, for the
`last().unwrap()` in `expand`).  All machine integers are `u64` in the source;
overflow behaviour is explicitly out of scope of the spec, so values are
modelled as `Nat`.
-/

namespace Primes

/-- The `TrialDivision` struct: a growable list `lst` of discovered primes. -/
structure TrialDivision where
  lst : List Nat
deriving DecidableEq

/-- Rust `TrialDivision::new()`: seeded with 2 and 3. -/
def TrialDivision.new : TrialDivision :=
  ⟨[2, 3]⟩

/-- The derived `Default` implementation: `Vec::default()` is the empty vector. -/
def TrialDivision.default : TrialDivision :=
  ⟨[]⟩

/-- The inner `for` loop of `expand`: walk the cached primes, assigning
`remainder = l % n` each step, and break as soon as `remainder == 0` or
`n * n > l`; the result is the final value of `remainder` (`rem` is the value
the mutable variable holds when the loop starts). -/
def tdScan (l : Nat) : Nat → List Nat → Nat
  | rem, [] => rem
  | _, n :: ns =>
      let r := l % n
      if r = 0 ∨ n * n > l then r else tdScan l r ns

/-- The outer `loop` of `expand`: try candidate `l`, pushing it when the scan
ends with a nonzero remainder, otherwise move to `l + 2`.  `fuel` bounds the
number of candidates tried; `none` means the bound was hit. -/
def expandLoop (lst : List Nat) : Nat → Nat → Nat → Option (List Nat)
  | _, _, 0 => none
  | l, rem, fuel + 1 =>
      let r := tdScan l rem lst
      if r ≠ 0 then some (lst ++ [l]) else expandLoop lst (l + 2) r fuel

/-- Rust `TrialDivision::expand`: start at `last + 2`.  The `last().unwrap()` panic
on an empty cache is modelled by returning `none` for every fuel. -/
def TrialDivision.expand (td : TrialDivision) (fuel : Nat) : Option TrialDivision :=
  match td.lst.getLast? with
  | none => none
  | some lastv => (expandLoop td.lst (lastv + 2) 0 fuel).map TrialDivision.mk

/-- Rust `PrimeSetBasics::list`. -/
def TrialDivision.list (td : TrialDivision) : List Nat :=
  td.lst

/-- The `PrimeSetIter` struct. -/
structure PrimeSetIter where
  p : TrialDivision
  n : Nat
  expand : Bool
deriving DecidableEq

namespace PrimeSet

/-- Rust `PrimeSet::len`. -/
def len (td : TrialDivision) : Nat :=
  td.list.length

/-- Rust `PrimeSet::is_empty`. -/
def is_empty (td : TrialDivision) : Bool :=
  td.list.isEmpty

/-- Rust `PrimeSet::generator`: iterator starting at the current cache size. -/
def generator (td : TrialDivision) : PrimeSetIter :=
  ⟨td, len td, true⟩

/-- Rust `PrimeSet::iter`: iterator over all primes, starting with 2. -/
def iter (td : TrialDivision) : PrimeSetIter :=
  ⟨td, 0, true⟩

/-- The binary-search `while` loop of `find_vec`.  `lst.getD i 0` models the
(index-checked) `self.list()[i]`; all uses are proved in bounds.  `fuel`
bounds the iteration count; since `lim` strictly decreases, `fuel = lim`
always suffices (the exit value at fuel 0 coincides with the loop exit, and
is only reached with `lim = 0` when `lim ≤ fuel` initially). -/
def findVecLoop (lst : List Nat) (n : Nat) : Nat → Nat → Nat → Nat × Nat
  | base, _, 0 => (base, lst.getD base 0)
  | base, lim, fuel + 1 =>
      if lim = 0 then (base, lst.getD base 0)
      else
        let idx := base + lim / 2
        let v := lst.getD idx 0
        if v = n then (idx, v)
        else if v < n then findVecLoop lst n (idx + 1) ((lim - 1) / 2) fuel
        else findVecLoop lst n base (lim / 2) fuel

/-- Rust `PrimeSet::find_vec`: `None` when `n` exceeds the largest cached prime
(`last().unwrap_or(&0)`), otherwise the binary-search result. -/
def find_vec (td : TrialDivision) (n : Nat) : Option (Nat × Nat) :=
  if td.list.getLastD 0 < n then none
  else some (findVecLoop td.list n 0 (len td) (len td))

/-- The `while` loop of `find`: expand until the last cached prime is at least
`n`.  `ef` is the fuel handed to each `expand` call and `wf` bounds the number
of loop iterations. -/
def findLoop (n ef : Nat) : TrialDivision → Nat → Option TrialDivision
  | td, 0 => if td.list.getLastD 0 < n then none else some td
  | td, wf + 1 =>
      if td.list.getLastD 0 < n then
        match td.expand ef with
        | none => none
        | some td' => findLoop n ef td' wf
      else some td

/-- Rust `PrimeSet::find`: expand until the last cached prime is at least `n`, then
delegate to `find_vec` on the grown cache. -/
def find (td : TrialDivision) (n ef wf : Nat) : Option (TrialDivision × Option (Nat × Nat)) :=
  (findLoop n ef td wf).map (fun td' => (td', find_vec td' n))

/-- The `for` loop of `get`: call `expand` a fixed number of times. -/
def expandTimes (ef : Nat) : TrialDivision → Nat → Option TrialDivision
  | td, 0 => some td
  | td, k + 1 =>
      match td.expand ef with
      | none => none
      | some td' => expandTimes ef td' k

/-- Rust `PrimeSet::get`: expand `index + 1 - len` times (saturating at zero, as the
`isize` range `0..delta` is empty for non-positive `delta`), then read the
cache at `index`. -/
def get (td : TrialDivision) (index ef : Nat) : Option (TrialDivision × Nat) :=
  (expandTimes ef td (index + 1 - len td)).map (fun td' => (td', td'.list.getD index 0))

end PrimeSet

/-- The `while` loop of `PrimeSetIter::next`: while the cursor is past the end
of the cache, expand (when allowed) or report exhaustion.  The outer `Option`
is fuel/panic, the inner `Option` is the iterator protocol: `some none` models
`return None`. -/
def nextLoop (ef : Nat) : PrimeSetIter → Nat → Option (Option PrimeSetIter)
  | _, 0 => none
  | it, wf + 1 =>
      if it.p.list.length ≤ it.n then
        if it.expand then
          match it.p.expand ef with
          | none => none
          | some p' => nextLoop ef ⟨p', it.n, it.expand⟩ wf
        else some none
      else some (some it)

/-- Rust `PrimeSetIter::next`: after the loop, advance the cursor and yield the
element at the old cursor position. -/
def PrimeSetIter.next (it : PrimeSetIter) (ef wf : Nat) : Option (Option (Nat × PrimeSetIter)) :=
  (nextLoop ef it wf).map
    (Option.map (fun it' => (it'.p.list.getD it'.n 0, PrimeSetIter.mk it'.p (it'.n + 1) it'.expand)))

/-- Run the iterator `k` steps, collecting the yielded values. -/
def iterTake (ef wf : Nat) : PrimeSetIter → Nat → Option (List Nat)
  | _, 0 => some []
  | it, k + 1 =>
      match it.next ef wf with
      | some (some (v, it')) => (iterTake ef wf it' k).map (fun vs => v :: vs)
      | _ => none

/-- The `for d in (1..).map(|m| 2*m+1).take_while(|m| m*m <= x)` loop of
`firstfac`: odd candidates `d = 3, 5, 7, ...` while `d * d ≤ x`. -/
def firstfacLoop (x : Nat) (d : Nat) : Nat :=
  if d * d ≤ x then
    if x % d = 0 then d else firstfacLoop x (d + 2)
  else x
termination_by x + 2 - d
decreasing_by
  have h : d ≤ d * d := by
    rcases Nat.eq_zero_or_pos d with h0 | h0
    · simp [h0]
    · exact Nat.le_mul_of_pos_left d h0
  omega

/-- Rust `firstfac`: the first factor (other than 1) of a number. -/
def firstfac (x : Nat) : Nat :=
  if x % 2 = 0 then 2
  else firstfacLoop x 3

/-- The `loop` of `factors`, with fuel: push the first factor, stop when it is
the number itself, otherwise divide it out and continue. -/
def factorsLoop : Nat → Nat → List Nat
  | _, 0 => []
  | x, fuel + 1 =>
      let d := firstfac x
      if d = x then [d] else d :: factorsLoop (x / d) fuel

/-- Rust `factors`: the prime factorization of `x` with multiplicity.  Fuel `x`
provably suffices for every `x ≥ 2` (the remaining value at least halves at
each step). -/
def factors (x : Nat) : List Nat :=
  if x ≤ 1 then [] else factorsLoop x x

/-- The inner `while x % d == 0 { x /= d }` loop of `factors_unique`,
with fuel. -/
def stripLoop (d : Nat) : Nat → Nat → Nat
  | x, 0 => x
  | x, fuel + 1 => if x % d = 0 then stripLoop d (x / d) fuel else x

/-- The `loop` of `factors_unique`, with fuel: push the first factor, then
divide out all its occurrences before continuing. -/
def factorsUniqueLoop : Nat → Nat → List Nat
  | _, 0 => []
  | x, fuel + 1 =>
      let d := firstfac x
      if d = x then [d]
      else
        let x' := stripLoop d x x
        if x' = 1 then [d] else d :: factorsUniqueLoop x' fuel

/-- Rust `factors_unique`: all distinct prime factors of `x`. -/
def factors_unique (x : Nat) : List Nat :=
  if x ≤ 1 then [] else factorsUniqueLoop x x

/-- Rust `is_prime`. -/
def is_prime (n : Nat) : Bool :=
  decide (1 < n) && decide (firstfac n = n)

/-- Spec-side comparator for the `factors_unique` claim: removal of
consecutive duplicates, the semantics of `Vec::dedup`. -/
def dedupConsecutive : List Nat → List Nat
  | [] => []
  | [a] => [a]
  | a :: b :: l => if a = b then dedupConsecutive (b :: l) else a :: dedupConsecutive (b :: l)

/-- The cache invariant: non-empty, strictly increasing, and holding exactly
the primes up to its last element. -/
def CacheInv (lst : List Nat) : Prop :=
  lst ≠ [] ∧ List.Sorted (· < ·) lst ∧
    ∀ p, p ∈ lst ↔ (Nat.Prime p ∧ p ≤ lst.getLastD 0)

/-- The invariant together with the seeding guaranteed by `new()`. -/
def SeededInv (lst : List Nat) : Prop :=
  CacheInv lst ∧ 2 ∈ lst ∧ 3 ∈ lst

theorem nextPrimeAfter_exists (m : Nat) : ∃ p, m < p ∧ Nat.Prime p := by
  obtain ⟨p, hle, hp⟩ := Nat.exists_infinite_primes (m + 1)
  exact ⟨p, by omega, hp⟩

/-- The least prime strictly greater than `m`. -/
def nextPrimeAfter (m : Nat) : Nat :=
  Nat.find (nextPrimeAfter_exists m)

/-! ### List helpers -/

theorem getLastD_mem_cons : ∀ (l : List Nat) (a : Nat), l.getLastD a ∈ a :: l := by
  intro l
  induction l with
  | nil => intro a; simp
  | cons b t ih =>
      intro a
      rw [List.getLastD_cons]
      exact List.mem_cons_of_mem a (ih b)

theorem getLastD_mem (l : List Nat) (h : l ≠ []) : l.getLastD 0 ∈ l := by
  cases l with
  | nil => exact absurd rfl h
  | cons b t =>
      rw [List.getLastD_cons]
      exact getLastD_mem_cons t b

theorem getLast?_of_ne_nil : ∀ (l : List Nat), l ≠ [] → l.getLast? = some (l.getLastD 0) := by
  intro l
  induction l with
  | nil => intro h; exact absurd rfl h
  | cons b t ih =>
      intro _
      cases t with
      | nil => rfl
      | cons c u =>
          have h2 : c :: u ≠ [] := by simp
          rw [List.getLast?_cons_cons, ih h2]
          simp [List.getLastD_cons]

theorem getD_last_index : ∀ (l : List Nat), l ≠ [] → l.getD (l.length - 1) 0 = l.getLastD 0 := by
  intro l
  induction l with
  | nil => intro h; exact absurd rfl h
  | cons b t ih =>
      intro _
      cases t with
      | nil => rfl
      | cons c u =>
          have h2 : c :: u ≠ [] := by simp
          have hlen : (b :: c :: u).length - 1 = (c :: u).length - 1 + 1 := by
            simp [List.length_cons]
          rw [hlen, List.getD_cons_succ, ih h2]
          simp [List.getLastD_cons]

theorem sorted_getD_lt (l : List Nat) (hs : List.Sorted (· < ·) l)
    (i j : Nat) (hij : i < j) (hj : j < l.length) : l.getD i 0 < l.getD j 0 := by
  have hi : i < l.length := lt_trans hij hj
  rw [List.getD_eq_getElem l 0 hi, List.getD_eq_getElem l 0 hj]
  exact List.pairwise_iff_getElem.mp hs i j hi hj hij

theorem sorted_getD_le (l : List Nat) (hs : List.Sorted (· < ·) l)
    (i j : Nat) (hij : i ≤ j) (hj : j < l.length) : l.getD i 0 ≤ l.getD j 0 := by
  rcases Nat.eq_or_lt_of_le hij with rfl | h
  · exact le_refl _
  · exact le_of_lt (sorted_getD_lt l hs i j h hj)

theorem getD_mem (l : List Nat) (i : Nat) (h : i < l.length) : l.getD i 0 ∈ l := by
  rw [List.getD_eq_getElem l 0 h]
  exact List.getElem_mem h

/-! ### tdScan facts -/

theorem tdScan_eq_mod : ∀ (lst : List Nat) (l rem : Nat), lst ≠ [] →
    ∃ n ∈ lst, tdScan l rem lst = l % n := by
  intro lst
  induction lst with
  | nil => intro _ _ h; exact absurd rfl h
  | cons n ns ih =>
      intro l rem _
      rw [tdScan]
      by_cases hb : l % n = 0 ∨ n * n > l
      · simp only [hb, if_pos]
        exact ⟨n, List.mem_cons_self n ns, rfl⟩
      · simp only [hb, if_neg, not_false_iff]
        cases ns with
        | nil => exact ⟨n, List.mem_cons_self n [], rfl⟩
        | cons m ms =>
            obtain ⟨q, hq, he⟩ := ih l (l % n) (by simp)
            exact ⟨q, List.mem_cons_of_mem n hq, he⟩

theorem tdScan_ne_zero (lst : List Nat) (l rem : Nat) (hne : lst ≠ [])
    (h : ∀ n ∈ lst, l % n ≠ 0) : tdScan l rem lst ≠ 0 := by
  obtain ⟨n, hn, he⟩ := tdScan_eq_mod lst l rem hne
  rw [he]
  exact h n hn

theorem tdScan_eq_zero : ∀ (lst : List Nat) (l rem q : Nat),
    List.Sorted (· < ·) lst → q ∈ lst → l % q = 0 →
    (∀ n ∈ lst, n < q → l % n ≠ 0 ∧ n * n ≤ l) → tdScan l rem lst = 0 := by
  intro lst
  induction lst with
  | nil => intro l rem q _ hq; exact absurd hq (by simp)
  | cons n ns ih =>
      intro l rem q hs hq hmod hsmall
      rw [List.sorted_cons] at hs
      rcases List.mem_cons.mp hq with rfl | hq'
      · simp [tdScan, hmod]
      · have hnq : n < q := hs.1 q hq'
        have hn := hsmall n (List.mem_cons_self n ns) hnq
        have hcond : ¬ (l % n = 0 ∨ n * n > l) := by
          push_neg
          exact ⟨hn.1, hn.2⟩
        rw [tdScan]
        simp only [hcond, if_false]
        exact ih l (l % n) q hs.2 hq' hmod
          (fun m hm hmq => hsmall m (List.mem_cons_of_mem n hm) hmq)

/-! ### CacheInv basics -/

theorem CacheInv.last_mem {lst : List Nat} (h : CacheInv lst) : lst.getLastD 0 ∈ lst :=
  getLastD_mem lst h.1

theorem CacheInv.last_prime {lst : List Nat} (h : CacheInv lst) :
    Nat.Prime (lst.getLastD 0) :=
  ((h.2.2 _).mp h.last_mem).1

theorem CacheInv.mem_le_last {lst : List Nat} (h : CacheInv lst) :
    ∀ p ∈ lst, p ≤ lst.getLastD 0 :=
  fun p hp => ((h.2.2 p).mp hp).2

theorem CacheInv.mem_prime {lst : List Nat} (h : CacheInv lst) :
    ∀ p ∈ lst, Nat.Prime p :=
  fun p hp => ((h.2.2 p).mp hp).1

theorem CacheInv.two_mem {lst : List Nat} (h : CacheInv lst) : 2 ∈ lst :=
  (h.2.2 2).mpr ⟨Nat.prime_two, h.last_prime.two_le⟩

theorem CacheInv.last_odd {lst : List Nat} (h : CacheInv lst)
    (h3 : 3 ≤ lst.getLastD 0) : lst.getLastD 0 % 2 = 1 := by
  have hp := h.last_prime
  have hne : lst.getLastD 0 ≠ 2 := by omega
  rcases (hp.odd_of_ne_two hne) with ⟨k, hk⟩
  omega

/-! ### nextPrimeAfter facts -/

theorem nextPrimeAfter_gt (m : Nat) : m < nextPrimeAfter m :=
  (Nat.find_spec (nextPrimeAfter_exists m)).1

theorem nextPrimeAfter_prime (m : Nat) : Nat.Prime (nextPrimeAfter m) :=
  (Nat.find_spec (nextPrimeAfter_exists m)).2

theorem nextPrimeAfter_le (m q : Nat) (hq : m < q) (hp : Nat.Prime q) :
    nextPrimeAfter m ≤ q :=
  Nat.find_min' (nextPrimeAfter_exists m) ⟨hq, hp⟩

theorem not_prime_between (m l : Nat) (h1 : m < l) (h2 : l < nextPrimeAfter m) :
    ¬ Nat.Prime l :=
  fun hp => absurd (nextPrimeAfter_le m l h1 hp) (by omega)

theorem nextPrimeAfter_odd (m : Nat) (h3 : 3 ≤ m) : nextPrimeAfter m % 2 = 1 := by
  have hp := nextPrimeAfter_prime m
  have hgt := nextPrimeAfter_gt m
  have hne : nextPrimeAfter m ≠ 2 := by omega
  rcases hp.odd_of_ne_two hne with ⟨k, hk⟩
  omega

/-! ### expand correctness -/

theorem scan_composite_zero {lst : List Nat} (hinv : CacheInv lst)
    (l rem : Nat) (hgt : lst.getLastD 0 < l)
    (hlt : l < nextPrimeAfter (lst.getLastD 0)) : tdScan l rem lst = 0 := by
  have hL2 : 2 ≤ lst.getLastD 0 := hinv.last_prime.two_le
  have hl3 : 3 ≤ l := by omega
  have hnp : ¬ Nat.Prime l := not_prime_between _ l hgt hlt
  have hq_prime : Nat.Prime l.minFac := Nat.minFac_prime (by omega)
  have hq_dvd : l.minFac ∣ l := Nat.minFac_dvd l
  have hq_sq : l.minFac * l.minFac ≤ l := by
    have := Nat.minFac_sq_le_self (by omega) hnp
    rwa [pow_two] at this
  have hq_le : l.minFac ≤ lst.getLastD 0 := by
    by_contra hc
    push_neg at hc
    have hPle := nextPrimeAfter_le _ l.minFac hc hq_prime
    have h2q : 2 * l.minFac ≤ l.minFac * l.minFac :=
      Nat.mul_le_mul_right _ hq_prime.two_le
    omega
  have hq_mem : l.minFac ∈ lst := (hinv.2.2 _).mpr ⟨hq_prime, hq_le⟩
  apply tdScan_eq_zero lst l rem l.minFac hinv.2.1 hq_mem
    (Nat.mod_eq_zero_of_dvd hq_dvd)
  intro n hn hnq
  constructor
  · intro hmod
    have hdvd : n ∣ l := Nat.dvd_of_mod_eq_zero hmod
    have := Nat.minFac_le_of_dvd (hinv.mem_prime n hn).two_le hdvd
    omega
  · have : n * n < l.minFac * l.minFac :=
      Nat.mul_lt_mul_of_lt_of_lt hnq hnq
    omega

theorem scan_next_prime_ne_zero {lst : List Nat} (hinv : CacheInv lst) (rem : Nat) :
    tdScan (nextPrimeAfter (lst.getLastD 0)) rem lst ≠ 0 := by
  apply tdScan_ne_zero lst _ rem hinv.1
  intro n hn hmod
  have hnp := hinv.mem_prime n hn
  have hle := hinv.mem_le_last n hn
  have hP := nextPrimeAfter_prime (lst.getLastD 0)
  have hgt := nextPrimeAfter_gt (lst.getLastD 0)
  have hdvd : n ∣ nextPrimeAfter (lst.getLastD 0) := Nat.dvd_of_mod_eq_zero hmod
  have h2n := hnp.two_le
  rcases (Nat.dvd_prime hP).mp hdvd with h1 | h2 <;> omega

theorem expandLoop_mono (lst : List Nat) :
    ∀ f f' l rem r, expandLoop lst l rem f = some r → f ≤ f' →
      expandLoop lst l rem f' = some r := by
  intro f
  induction f with
  | zero => intro f' l rem r h _; simp [expandLoop] at h
  | succ n ih =>
      intro f' l rem r h hle
      obtain ⟨f'', rfl⟩ : ∃ k, f' = k + 1 := ⟨f' - 1, by omega⟩
      simp only [expandLoop] at h ⊢
      by_cases hc : tdScan l rem lst = 0
      · simp only [hc, ne_eq, not_true_eq_false, if_false] at h ⊢
        exact ih f'' (l + 2) 0 r h (by omega)
      · rw [if_pos hc] at h
        rw [if_pos hc]
        exact h

theorem expandLoop_sound {lst : List Nat} (hinv : CacheInv lst)
    (h3 : 3 ≤ lst.getLastD 0) :
    ∀ f l rem r, lst.getLastD 0 < l → l % 2 = 1 →
      l ≤ nextPrimeAfter (lst.getLastD 0) →
      expandLoop lst l rem f = some r →
      r = lst ++ [nextPrimeAfter (lst.getLastD 0)] := by
  intro f
  induction f with
  | zero => intro l rem r _ _ _ h; simp [expandLoop] at h
  | succ n ih =>
      intro l rem r hgt hodd hle h
      simp only [expandLoop] at h
      by_cases hc : tdScan l rem lst = 0
      · simp only [hc, ne_eq, not_true_eq_false, if_false] at h
        have hlP : l < nextPrimeAfter (lst.getLastD 0) := by
          rcases Nat.eq_or_lt_of_le hle with rfl | h2
          · exact absurd hc (scan_next_prime_ne_zero hinv rem)
          · exact h2
        have hPodd := nextPrimeAfter_odd _ h3
        exact ih (l + 2) 0 r (by omega) (by omega) (by omega) h
      · rw [if_pos hc] at h
        have hlP : l = nextPrimeAfter (lst.getLastD 0) := by
          rcases Nat.eq_or_lt_of_le hle with h2 | h2
          · exact h2
          · exact absurd (scan_composite_zero hinv l rem hgt h2) hc
        rw [← hlP]
        exact (Option.some_inj.mp h).symm

theorem expandLoop_terminates {lst : List Nat} (hinv : CacheInv lst)
    (h3 : 3 ≤ lst.getLastD 0) :
    ∀ k l rem, lst.getLastD 0 < l → l % 2 = 1 →
      l ≤ nextPrimeAfter (lst.getLastD 0) →
      nextPrimeAfter (lst.getLastD 0) - l ≤ k →
      ∃ f, expandLoop lst l rem f = some (lst ++ [nextPrimeAfter (lst.getLastD 0)]) := by
  intro k
  induction k with
  | zero =>
      intro l rem hgt hodd hle hk
      have hl : l = nextPrimeAfter (lst.getLastD 0) := by omega
      subst hl
      refine ⟨1, ?_⟩
      simp only [expandLoop]
      rw [if_pos (scan_next_prime_ne_zero hinv rem)]
  | succ k ih =>
      intro l rem hgt hodd hle hk
      rcases Nat.eq_or_lt_of_le hle with hl | hlt
      · subst hl
        refine ⟨1, ?_⟩
        simp only [expandLoop]
        rw [if_pos (scan_next_prime_ne_zero hinv rem)]
      · have hscan := scan_composite_zero hinv l rem hgt hlt
        have hPodd := nextPrimeAfter_odd _ h3
        obtain ⟨f, hf⟩ := ih (l + 2) 0 (by omega) (by omega) (by omega) (by omega)
        refine ⟨f + 1, ?_⟩
        simp only [expandLoop, hscan, ne_eq, not_true_eq_false, if_false]
        exact hf

theorem CacheInv.eq_singleton_two {lst : List Nat} (h : CacheInv lst)
    (h2 : lst.getLastD 0 = 2) : lst = [2] := by
  obtain ⟨hne, hs, hm⟩ := h
  cases lst with
  | nil => exact absurd rfl hne
  | cons a t =>
      have ha : a = 2 := by
        have h1 := (hm a).mp (List.mem_cons_self a t)
        have h2le := h1.1.two_le
        omega
      cases t with
      | nil => rw [ha]
      | cons b u =>
          have hb : b = 2 := by
            have h1 := (hm b).mp (by simp)
            have := h1.1.two_le
            omega
          rw [List.sorted_cons] at hs
          have := hs.1 b (by simp)
          omega

theorem expandLoop_singleton_two_none :
    ∀ f l rem, l % 2 = 0 → expandLoop [2] l rem f = none := by
  intro f
  induction f with
  | zero => intro l rem _; rfl
  | succ n ih =>
      intro l rem he
      have hs : tdScan l rem [2] = 0 := by
        simp [tdScan, he]
      simp only [expandLoop, hs, ne_eq, not_true_eq_false, if_false]
      exact ih (l + 2) 0 (by omega)

theorem expand_eq_of_getLast {td : TrialDivision} {v : Nat}
    (hg : td.lst.getLast? = some v) (f : Nat) :
    td.expand f = (expandLoop td.lst (v + 2) 0 f).map TrialDivision.mk := by
  simp [TrialDivision.expand, hg]

theorem expand_some_eq {td : TrialDivision} {f : Nat} {td' : TrialDivision}
    (hinv : CacheInv td.lst) (h : td.expand f = some td') :
    td'.lst = td.lst ++ [nextPrimeAfter (td.lst.getLastD 0)] := by
  have hne := hinv.1
  rw [expand_eq_of_getLast (getLast?_of_ne_nil td.lst hne) f] at h
  have hL2 : 2 ≤ td.lst.getLastD 0 := hinv.last_prime.two_le
  rcases Nat.eq_or_lt_of_le hL2 with hL | hL
  · exfalso
    have hsing := hinv.eq_singleton_two hL.symm
    rw [hsing] at h
    have hnone : expandLoop [2] (([2] : List Nat).getLastD 0 + 2) 0 f = none :=
      expandLoop_singleton_two_none f _ 0 (by decide)
    rw [hnone] at h
    simp at h
  · obtain ⟨r, hr, hmk⟩ := Option.map_eq_some'.mp h
    have h3 : 3 ≤ td.lst.getLastD 0 := hL
    have hodd := hinv.last_odd h3
    have hPgt := nextPrimeAfter_gt (td.lst.getLastD 0)
    have hPodd := nextPrimeAfter_odd _ h3
    have := expandLoop_sound hinv h3 f (td.lst.getLastD 0 + 2) 0 r
      (by omega) (by omega) (by omega) hr
    rw [← hmk, this]

theorem expand_terminates {td : TrialDivision} (hinv : CacheInv td.lst)
    (h3 : 3 ≤ td.lst.getLastD 0) :
    ∃ f, td.expand f = some ⟨td.lst ++ [nextPrimeAfter (td.lst.getLastD 0)]⟩ := by
  have hne := hinv.1
  have hodd := hinv.last_odd h3
  have hPgt := nextPrimeAfter_gt (td.lst.getLastD 0)
  have hPodd := nextPrimeAfter_odd _ h3
  obtain ⟨f, hf⟩ := expandLoop_terminates hinv h3
    (nextPrimeAfter (td.lst.getLastD 0)) (td.lst.getLastD 0 + 2) 0
    (by omega) (by omega) (by omega) (by omega)
  refine ⟨f, ?_⟩
  rw [expand_eq_of_getLast (getLast?_of_ne_nil td.lst hne) f, hf]
  rfl

theorem expand_mono {td : TrialDivision} {f f' : Nat} {td' : TrialDivision}
    (h : td.expand f = some td') (hle : f ≤ f') : td.expand f' = some td' := by
  cases hg : td.lst.getLast? with
  | none => simp [TrialDivision.expand, hg] at h
  | some v =>
      rw [expand_eq_of_getLast hg f] at h
      rw [expand_eq_of_getLast hg f']
      obtain ⟨r, hr, hmk⟩ := Option.map_eq_some'.mp h
      rw [expandLoop_mono td.lst f f' (v + 2) 0 r hr hle]
      simpa using hmk

theorem cacheInv_append_nextPrime {lst : List Nat} (hinv : CacheInv lst) :
    CacheInv (lst ++ [nextPrimeAfter (lst.getLastD 0)]) ∧
    (lst ++ [nextPrimeAfter (lst.getLastD 0)]).getLastD 0 =
      nextPrimeAfter (lst.getLastD 0) := by
  have hLP := nextPrimeAfter_gt (lst.getLastD 0)
  have hlast : (lst ++ [nextPrimeAfter (lst.getLastD 0)]).getLastD 0 =
      nextPrimeAfter (lst.getLastD 0) := by simp
  refine ⟨⟨by simp, ?_, ?_⟩, hlast⟩
  · apply List.pairwise_append.mpr
    refine ⟨hinv.2.1, List.pairwise_singleton _ _, ?_⟩
    intro a ha b hb
    rw [List.mem_singleton] at hb
    subst hb
    exact lt_of_le_of_lt (hinv.mem_le_last a ha) hLP
  · intro p
    rw [hlast]
    constructor
    · intro hp
      rcases List.mem_append.mp hp with h | h
      · obtain ⟨hpp, hple⟩ := (hinv.2.2 p).mp h
        exact ⟨hpp, by omega⟩
      · rw [List.mem_singleton] at h
        subst h
        exact ⟨nextPrimeAfter_prime _, le_refl _⟩
    · rintro ⟨hpp, hple⟩
      by_cases hc : p ≤ lst.getLastD 0
      · exact List.mem_append_left _ ((hinv.2.2 p).mpr ⟨hpp, hc⟩)
      · push_neg at hc
        have hPle := nextPrimeAfter_le _ p hc hpp
        have hpP : p = nextPrimeAfter (lst.getLastD 0) := by omega
        subst hpP
        exact List.mem_append_right _ (by simp)

/-! ### Seeded invariant facts -/

theorem cacheInv_new : CacheInv TrialDivision.new.lst := by
  refine ⟨by simp [TrialDivision.new], by simp [TrialDivision.new], ?_⟩
  intro p
  show p ∈ [2, 3] ↔ Nat.Prime p ∧ p ≤ 3
  constructor
  · intro hp
    rcases List.mem_cons.mp hp with rfl | hp
    · exact ⟨Nat.prime_two, by omega⟩
    · rcases List.mem_singleton.mp hp with rfl
      exact ⟨Nat.prime_three, by omega⟩
  · rintro ⟨hpp, hple⟩
    have h2 := hpp.two_le
    interval_cases p <;> simp

theorem seededInv_new : SeededInv TrialDivision.new.lst :=
  ⟨cacheInv_new, by simp [TrialDivision.new], by simp [TrialDivision.new]⟩

theorem SeededInv.last_ge_three {lst : List Nat} (h : SeededInv lst) :
    3 ≤ lst.getLastD 0 :=
  h.1.mem_le_last 3 h.2.2

theorem expand_preserves_seeded {td : TrialDivision} {f : Nat} {td' : TrialDivision}
    (hinv : SeededInv td.lst) (h : td.expand f = some td') : SeededInv td'.lst := by
  have he := expand_some_eq hinv.1 h
  obtain ⟨hci, _⟩ := cacheInv_append_nextPrime hinv.1
  rw [he]
  exact ⟨hci, List.mem_append_left _ hinv.2.1, List.mem_append_left _ hinv.2.2⟩

theorem expand_seeded_terminates {td : TrialDivision} (hinv : SeededInv td.lst) :
    ∃ f td', td.expand f = some td' ∧
      td'.lst = td.lst ++ [nextPrimeAfter (td.lst.getLastD 0)] := by
  obtain ⟨f, hf⟩ := expand_terminates hinv.1 hinv.last_ge_three
  exact ⟨f, _, hf, rfl⟩

theorem expand_some_length {td : TrialDivision} {f : Nat} {td' : TrialDivision}
    (hinv : CacheInv td.lst) (h : td.expand f = some td') :
    td'.lst.length = td.lst.length + 1 := by
  rw [expand_some_eq hinv h]
  simp

@[simp]
theorem TrialDivision.list_eq (td : TrialDivision) : td.list = td.lst :=
  rfl

/-! ### Preservation and termination of the derived operations -/

theorem findLoop_preserves {n ef : Nat} :
    ∀ wf (td td' : TrialDivision), SeededInv td.lst →
      PrimeSet.findLoop n ef td wf = some td' → SeededInv td'.lst := by
  intro wf
  induction wf with
  | zero =>
      intro td td' hinv h
      rw [PrimeSet.findLoop] at h
      by_cases hc : td.list.getLastD 0 < n
      · rw [if_pos hc] at h
        exact absurd h (by simp)
      · rw [if_neg hc] at h
        rw [← Option.some_inj.mp h]
        exact hinv
  | succ wf ih =>
      intro td td' hinv h
      rw [PrimeSet.findLoop] at h
      by_cases hc : td.list.getLastD 0 < n
      · rw [if_pos hc] at h
        cases hg : td.expand ef with
        | none => rw [hg] at h; exact absurd h (by simp)
        | some td₁ =>
            rw [hg] at h
            exact ih td₁ td' (expand_preserves_seeded hinv hg) h
      · rw [if_neg hc] at h
        rw [← Option.some_inj.mp h]
        exact hinv

theorem findLoop_mono {n : Nat} :
    ∀ wf (td td' : TrialDivision) (ef ef' : Nat),
      PrimeSet.findLoop n ef td wf = some td' → ef ≤ ef' →
      PrimeSet.findLoop n ef' td wf = some td' := by
  intro wf
  induction wf with
  | zero => intro td td' ef ef' h _; exact h
  | succ wf ih =>
      intro td td' ef ef' h hle
      rw [PrimeSet.findLoop] at h ⊢
      by_cases hc : td.list.getLastD 0 < n
      · rw [if_pos hc] at h ⊢
        cases hg : td.expand ef with
        | none => rw [hg] at h; exact absurd h (by simp)
        | some td₁ =>
            rw [hg] at h
            rw [expand_mono hg hle]
            exact ih td₁ td' ef ef' h hle
      · rw [if_neg hc] at h ⊢
        exact h

theorem findLoop_terminates {n : Nat} :
    ∀ m (td : TrialDivision), SeededInv td.lst → n - td.lst.getLastD 0 ≤ m →
      ∃ ef wf td', PrimeSet.findLoop n ef td wf = some td' ∧
        SeededInv td'.lst ∧ n ≤ td'.lst.getLastD 0 ∧
        ∃ ext, td'.lst = td.lst ++ ext := by
  intro m
  induction m with
  | zero =>
      intro td hinv hm
      refine ⟨0, 0, td, ?_, hinv, by omega, [], by simp⟩
      rw [PrimeSet.findLoop]
      rw [if_neg (show ¬ td.list.getLastD 0 < n by rw [TrialDivision.list_eq]; omega)]
  | succ m ih =>
      intro td hinv hm
      by_cases hc : td.lst.getLastD 0 < n
      · obtain ⟨ef₁, td₁, hg, he⟩ := expand_seeded_terminates hinv
        have hinv₁ := expand_preserves_seeded hinv hg
        have hlast₁ : td₁.lst.getLastD 0 = nextPrimeAfter (td.lst.getLastD 0) := by
          rw [he]
          simp
        have hgt := nextPrimeAfter_gt (td.lst.getLastD 0)
        obtain ⟨ef₂, wf₂, td', hf, hinv', hn', ext₂, hext₂⟩ := ih td₁ hinv₁ (by omega)
        refine ⟨max ef₁ ef₂, wf₂ + 1, td', ?_, hinv', hn', ?_⟩
        · rw [PrimeSet.findLoop]
          rw [if_pos (by simpa using hc)]
          rw [expand_mono hg (Nat.le_max_left ef₁ ef₂)]
          exact findLoop_mono wf₂ td₁ td' ef₂ (max ef₁ ef₂) hf (Nat.le_max_right ef₁ ef₂)
        · refine ⟨[nextPrimeAfter (td.lst.getLastD 0)] ++ ext₂, ?_⟩
          rw [hext₂, he, List.append_assoc]
      · refine ⟨0, 0, td, ?_, hinv, by omega, [], by simp⟩
        rw [PrimeSet.findLoop]
        rw [if_neg (by simpa using hc)]

theorem expandTimes_mono {ef ef' : Nat} :
    ∀ k (td td' : TrialDivision), PrimeSet.expandTimes ef td k = some td' →
      ef ≤ ef' → PrimeSet.expandTimes ef' td k = some td' := by
  intro k
  induction k with
  | zero => intro td td' h _; exact h
  | succ k ih =>
      intro td td' h hle
      rw [PrimeSet.expandTimes] at h ⊢
      cases hg : td.expand ef with
      | none => rw [hg] at h; exact absurd h (by simp)
      | some td₁ =>
          rw [hg] at h
          rw [expand_mono hg hle]
          exact ih td₁ td' h hle

theorem expandTimes_preserves {ef : Nat} :
    ∀ k (td td' : TrialDivision), SeededInv td.lst →
      PrimeSet.expandTimes ef td k = some td' →
      SeededInv td'.lst ∧ td'.lst.length = td.lst.length + k ∧
      ∃ ext, td'.lst = td.lst ++ ext := by
  intro k
  induction k with
  | zero =>
      intro td td' hinv h
      rw [← Option.some_inj.mp h]
      exact ⟨hinv, rfl, [], by simp⟩
  | succ k ih =>
      intro td td' hinv h
      rw [PrimeSet.expandTimes] at h
      cases hg : td.expand ef with
      | none => rw [hg] at h; exact absurd h (by simp)
      | some td₁ =>
          rw [hg] at h
          have hinv₁ := expand_preserves_seeded hinv hg
          obtain ⟨hinv', hlen, ext, hext⟩ := ih td₁ td' hinv₁ h
          have hlen₁ := expand_some_length hinv.1 hg
          refine ⟨hinv', by omega, ?_⟩
          have he := expand_some_eq hinv.1 hg
          exact ⟨[nextPrimeAfter (td.lst.getLastD 0)] ++ ext, by
            rw [hext, he, List.append_assoc]⟩

theorem expandTimes_terminates :
    ∀ k (td : TrialDivision), SeededInv td.lst →
      ∃ ef td', PrimeSet.expandTimes ef td k = some td' := by
  intro k
  induction k with
  | zero => intro td _; exact ⟨0, td, rfl⟩
  | succ k ih =>
      intro td hinv
      obtain ⟨ef₁, td₁, hg, _⟩ := expand_seeded_terminates hinv
      obtain ⟨ef₂, td', hf⟩ := ih td₁ (expand_preserves_seeded hinv hg)
      refine ⟨max ef₁ ef₂, td', ?_⟩
      rw [PrimeSet.expandTimes]
      rw [expand_mono hg (Nat.le_max_left ef₁ ef₂)]
      exact expandTimes_mono k td₁ td' hf (Nat.le_max_right ef₁ ef₂)

theorem nextLoop_mono :
    ∀ wf (it : PrimeSetIter) (r : Option PrimeSetIter) (ef ef' : Nat),
      nextLoop ef it wf = some r → ef ≤ ef' → nextLoop ef' it wf = some r := by
  intro wf
  induction wf with
  | zero => intro it r ef ef' h _; exact absurd h (by simp [nextLoop])
  | succ wf ih =>
      intro it r ef ef' h hle
      rw [nextLoop] at h ⊢
      by_cases hc : it.p.list.length ≤ it.n
      · rw [if_pos hc] at h ⊢
        by_cases hex : it.expand
        · rw [if_pos hex] at h ⊢
          cases hg : it.p.expand ef with
          | none => rw [hg] at h; exact absurd h (by simp)
          | some p' =>
              rw [hg] at h
              rw [expand_mono hg hle]
              exact ih _ r ef ef' h hle
        · rw [if_neg hex] at h ⊢
          exact h
      · rw [if_neg hc] at h ⊢
        exact h

theorem nextLoop_preserves {ef : Nat} :
    ∀ wf (it : PrimeSetIter) (it₀ : PrimeSetIter), SeededInv it.p.lst →
      nextLoop ef it wf = some (some it₀) →
      SeededInv it₀.p.lst ∧ it₀.n = it.n ∧ it₀.expand = it.expand := by
  intro wf
  induction wf with
  | zero => intro it it₀ hinv h; exact absurd h (by simp [nextLoop])
  | succ wf ih =>
      intro it it₀ hinv h
      rw [nextLoop] at h
      by_cases hc : it.p.list.length ≤ it.n
      · rw [if_pos hc] at h
        by_cases hex : it.expand
        · rw [if_pos hex] at h
          cases hg : it.p.expand ef with
          | none => rw [hg] at h; exact absurd h (by simp)
          | some p' =>
              rw [hg] at h
              exact ih ⟨p', it.n, it.expand⟩ it₀ (expand_preserves_seeded hinv hg) h
        · rw [if_neg hex] at h
          exact absurd (Option.some_inj.mp h) (by simp)
      · rw [if_neg hc] at h
        have heq := Option.some_inj.mp (Option.some_inj.mp h)
        subst heq
        exact ⟨hinv, rfl, rfl⟩

theorem nextLoop_terminates :
    ∀ m (td : TrialDivision) (k : Nat), SeededInv td.lst → k + 1 - td.lst.length ≤ m →
      ∃ ef wf td₂, nextLoop ef ⟨td, k, true⟩ wf = some (some ⟨td₂, k, true⟩) ∧
        SeededInv td₂.lst ∧ (∃ ext, td₂.lst = td.lst ++ ext) ∧
        k < td₂.lst.length ∧ td₂.lst.length = max td.lst.length (k + 1) := by
  intro m
  induction m with
  | zero =>
      intro td k hinv hm
      refine ⟨0, 1, td, ?_, hinv, ⟨[], by simp⟩, by omega, by omega⟩
      rw [nextLoop]
      rw [if_neg (by simp; omega)]
  | succ m ih =>
      intro td k hinv hm
      by_cases hc : td.lst.length ≤ k
      · obtain ⟨ef₁, td₁, hg, he⟩ := expand_seeded_terminates hinv
        have hinv₁ := expand_preserves_seeded hinv hg
        have hlen₁ : td₁.lst.length = td.lst.length + 1 := expand_some_length hinv.1 hg
        obtain ⟨ef₂, wf₂, td₂, hf, hinv₂, hext₂, hk₂, hlen₂⟩ :=
          ih td₁ k hinv₁ (by omega)
        refine ⟨max ef₁ ef₂, wf₂ + 1, td₂, ?_, hinv₂, ?_, hk₂, by omega⟩
        · rw [nextLoop]
          rw [if_pos (by simpa using hc), if_pos rfl]
          rw [show (⟨td, k, true⟩ : PrimeSetIter).p = td from rfl]
          rw [expand_mono hg (Nat.le_max_left ef₁ ef₂)]
          exact nextLoop_mono wf₂ _ _ ef₂ (max ef₁ ef₂) hf (Nat.le_max_right ef₁ ef₂)
        · obtain ⟨ext, hext⟩ := hext₂
          exact ⟨[nextPrimeAfter (td.lst.getLastD 0)] ++ ext, by
            rw [hext, he, List.append_assoc]⟩
      · refine ⟨0, 1, td, ?_, hinv, ⟨[], by simp⟩, by omega, by omega⟩
        rw [nextLoop]
        rw [if_neg (by simpa using hc)]

theorem next_step {td : TrialDivision} {k : Nat} (hinv : SeededInv td.lst) :
    ∃ ef wf v td₂,
      PrimeSetIter.next ⟨td, k, true⟩ ef wf = some (some (v, ⟨td₂, k + 1, true⟩)) ∧
      SeededInv td₂.lst ∧ v = td₂.lst.getD k 0 ∧ Nat.Prime v ∧
      td₂.lst.length = max td.lst.length (k + 1) ∧
      (∃ ext, td₂.lst = td.lst ++ ext) ∧
      (td.lst.length ≤ k → td.lst.getLastD 0 < v) := by
  obtain ⟨ef, wf, td₂, hl, hinv₂, hext, hk₂, hlen₂⟩ :=
    nextLoop_terminates (k + 1 - td.lst.length) td k hinv (le_refl _)
  refine ⟨ef, wf, td₂.lst.getD k 0, td₂, ?_, hinv₂, rfl, ?_, hlen₂, hext, ?_⟩
  · rw [PrimeSetIter.next, hl]
    rfl
  · exact hinv₂.1.mem_prime _ (getD_mem td₂.lst k hk₂)
  · intro hlek
    obtain ⟨ext, hext'⟩ := hext
    have hne := hinv.1.1
    have hlpos : 0 < td.lst.length := List.length_pos.mpr hne
    have hj : td.lst.length - 1 < td.lst.length := by omega
    have hgetj : td₂.lst.getD (td.lst.length - 1) 0 = td.lst.getLastD 0 := by
      rw [hext', List.getD_append td.lst ext 0 _ hj, getD_last_index td.lst hne]
    calc td.lst.getLastD 0 = td₂.lst.getD (td.lst.length - 1) 0 := hgetj.symm
      _ < td₂.lst.getD k 0 :=
          sorted_getD_lt td₂.lst hinv₂.1.2.1 _ k (by omega) hk₂

/-! ### Claims C1, C2, C10 -/

/-- C1 (counterexample): the cache `[2]` is non-empty, strictly increasing and
contains exactly the primes up to its last element, yet `expand` never
terminates on it — every candidate `4, 6, 8, ...` is even, so the scan always
ends with remainder `0`. -/
theorem C1_counterexample :
    CacheInv (TrialDivision.mk [2]).lst ∧
    ∀ fuel, (TrialDivision.mk [2]).expand fuel = none := by
  constructor
  · refine ⟨by simp, by simp, ?_⟩
    intro p
    show p ∈ [2] ↔ Nat.Prime p ∧ p ≤ 2
    constructor
    · intro hp
      rcases List.mem_singleton.mp hp with rfl
      exact ⟨Nat.prime_two, le_refl _⟩
    · rintro ⟨hp, hle⟩
      have h2 := hp.two_le
      have : p = 2 := by omega
      simp [this]
  · intro fuel
    rw [expand_eq_of_getLast (show (TrialDivision.mk [2]).lst.getLast? = some 2 from rfl) fuel]
    rw [expandLoop_singleton_two_none fuel (2 + 2) 0 (by decide)]
    rfl

/-- C1 (amended): on a non-empty cache satisfying the invariant whose last
element is at least 3 (which holds for every cache reachable from `new()`),
a single `expand` call terminates and appends exactly one element: the length
grows by exactly one, and the new last element is a prime strictly greater
than the previous last element. -/
theorem C1_expand_appends_one_prime (td : TrialDivision)
    (hinv : CacheInv td.lst) (h3 : 3 ≤ td.lst.getLastD 0) :
    ∃ fuel td', td.expand fuel = some td' ∧
      td'.lst.length = td.lst.length + 1 ∧
      td.lst.getLastD 0 < td'.lst.getLastD 0 ∧
      Nat.Prime (td'.lst.getLastD 0) := by
  obtain ⟨f, hf⟩ := expand_terminates hinv h3
  refine ⟨f, _, hf, by simp, ?_, ?_⟩
  · show td.lst.getLastD 0 < (td.lst ++ [nextPrimeAfter (td.lst.getLastD 0)]).getLastD 0
    rw [(cacheInv_append_nextPrime hinv).2]
    exact nextPrimeAfter_gt _
  · show Nat.Prime ((td.lst ++ [nextPrimeAfter (td.lst.getLastD 0)]).getLastD 0)
    rw [(cacheInv_append_nextPrime hinv).2]
    exact nextPrimeAfter_prime _

theorem C1_expand_appends_one_prime_witness :
    CacheInv TrialDivision.new.lst ∧ 3 ≤ TrialDivision.new.lst.getLastD 0 ∧
    (∃ fuel td', TrialDivision.new.expand fuel = some td' ∧
      td'.lst.length = TrialDivision.new.lst.length + 1 ∧
      TrialDivision.new.lst.getLastD 0 < td'.lst.getLastD 0 ∧
      Nat.Prime (td'.lst.getLastD 0)) :=
  ⟨cacheInv_new, by decide,
    C1_expand_appends_one_prime TrialDivision.new cacheInv_new (by decide)⟩

/-- C2: `new()` establishes the seeded cache invariant (strictly increasing,
non-empty, seeded with 2 and 3, containing exactly the primes up to the last
element), and `expand`, `find`, `get` and iteration (`next`) all preserve
it. -/
theorem C2_invariant_preservation :
    (SeededInv TrialDivision.new.lst ∧ TrialDivision.new.lst = [2, 3]) ∧
    (∀ (td : TrialDivision) (f : Nat) (td' : TrialDivision),
      SeededInv td.lst → td.expand f = some td' → SeededInv td'.lst) ∧
    (∀ (td : TrialDivision) (n ef wf : Nat) (td' : TrialDivision)
      (res : Option (Nat × Nat)), SeededInv td.lst →
      PrimeSet.find td n ef wf = some (td', res) → SeededInv td'.lst) ∧
    (∀ (td : TrialDivision) (index ef : Nat) (td' : TrialDivision) (v : Nat),
      SeededInv td.lst →
      PrimeSet.get td index ef = some (td', v) → SeededInv td'.lst) ∧
    (∀ (it : PrimeSetIter) (ef wf : Nat) (v : Nat) (it' : PrimeSetIter),
      SeededInv it.p.lst →
      it.next ef wf = some (some (v, it')) → SeededInv it'.p.lst) := by
  refine ⟨⟨seededInv_new, rfl⟩, ?_, ?_, ?_, ?_⟩
  · intro td f td' hinv h
    exact expand_preserves_seeded hinv h
  · intro td n ef wf td' res hinv h
    obtain ⟨td₀, h₀, heq⟩ := Option.map_eq_some'.mp h
    have hfst : td₀ = td' := congrArg Prod.fst heq
    rw [← hfst] at *
    exact findLoop_preserves wf td td₀ hinv h₀
  · intro td index ef td' v hinv h
    obtain ⟨td₀, h₀, heq⟩ := Option.map_eq_some'.mp h
    have hfst : td₀ = td' := congrArg Prod.fst heq
    rw [← hfst] at *
    exact (expandTimes_preserves _ td td₀ hinv h₀).1
  · intro it ef wf v it' hinv h
    simp only [PrimeSetIter.next] at h
    obtain ⟨r, hr, heq⟩ := Option.map_eq_some'.mp h
    cases r with
    | none => simp at heq
    | some it₀ =>
        have hp : it'.p = it₀.p := by
          simp only [Option.map_some'] at heq
          have := (Prod.mk.injEq _ _ _ _).mp (Option.some_inj.mp heq)
          rw [← this.2]
        rw [hp]
        exact (nextLoop_preserves wf it it₀ hinv hr).1

theorem C2_invariant_preservation_witness :
    SeededInv (TrialDivision.mk [2, 3, 5]).lst :=
  C2_invariant_preservation.2.1 (TrialDivision.mk [2, 3]) 5 (TrialDivision.mk [2, 3, 5])
    seededInv_new (by decide)

/-- C10: the derived `Default` implementation yields an empty cache rather
than the `[2, 3]` seed of `new()`, and `expand` on it hits the
`last().unwrap()` panic (modelled as `none` for every fuel), while `expand`
on a `new()` value succeeds. -/
theorem C10_default_empty_expand_panics :
    TrialDivision.default.lst = [] ∧
    (∀ fuel, TrialDivision.default.expand fuel = none) ∧
    TrialDivision.new.lst = [2, 3] ∧
    TrialDivision.new.expand 1 = some (TrialDivision.mk [2, 3, 5]) := by
  refine ⟨rfl, ?_, rfl, by decide⟩
  intro fuel
  rfl

/-! ### firstfac agrees with Nat.minFac -/

theorem firstfacLoop_eq_minFacAux (x : Nat) :
    ∀ k, 0 < k → firstfacLoop x k = Nat.minFacAux x k := by
  have H : ∀ m k, x + 2 - k ≤ m → 0 < k → firstfacLoop x k = Nat.minFacAux x k := by
    intro m
    induction m with
    | zero =>
        intro k hm hk
        rw [firstfacLoop, Nat.minFacAux]
        have h1 : ¬ k * k ≤ x := by
          intro hc
          have : k ≤ k * k := Nat.le_mul_of_pos_left k hk
          omega
        rw [if_neg h1, if_pos (show x < k * k by omega)]
    | succ m ih =>
        intro k hm hk
        rw [firstfacLoop, Nat.minFacAux]
        by_cases h1 : k * k ≤ x
        · rw [if_pos h1, if_neg (show ¬ x < k * k by omega)]
          by_cases h2 : x % k = 0
          · rw [if_pos h2, if_pos (show k ∣ x from Nat.dvd_of_mod_eq_zero h2)]
          · rw [if_neg h2,
              if_neg (show ¬ k ∣ x from fun hd => h2 (Nat.mod_eq_zero_of_dvd hd))]
            have : k ≤ k * k := Nat.le_mul_of_pos_left k hk
            exact ih (k + 2) (by omega) (by omega)
        · rw [if_neg h1, if_pos (show x < k * k by omega)]
  intro k hk
  exact H (x + 2 - k) k (le_refl _) hk

theorem firstfac_eq_minFac (x : Nat) : firstfac x = Nat.minFac x := by
  rw [firstfac, Nat.minFac_eq]
  by_cases h : x % 2 = 0
  · rw [if_pos h, if_pos (Nat.dvd_of_mod_eq_zero h)]
  · rw [if_neg h, if_neg (fun hd => h (Nat.mod_eq_zero_of_dvd hd))]
    exact firstfacLoop_eq_minFacAux x 3 (by omega)

/-! ### factors agrees with Nat.primeFactorsList -/

theorem factorsLoop_eq_primeFactorsList :
    ∀ x, 2 ≤ x → ∀ fuel, x ≤ fuel → factorsLoop x fuel = Nat.primeFactorsList x := by
  intro x
  induction x using Nat.strong_induction_on with
  | _ x ih =>
      intro hx fuel hfuel
      obtain ⟨f, rfl⟩ : ∃ f, fuel = f + 1 := ⟨fuel - 1, by omega⟩
      simp only [factorsLoop]
      rw [firstfac_eq_minFac]
      have hne1 : x ≠ 1 := by omega
      have hdp : Nat.Prime (Nat.minFac x) := Nat.minFac_prime hne1
      have hdvd : Nat.minFac x ∣ x := Nat.minFac_dvd x
      have hpfl : Nat.primeFactorsList x =
          Nat.minFac x :: Nat.primeFactorsList (x / Nat.minFac x) := by
        obtain ⟨m, rfl⟩ : ∃ m, x = m + 2 := ⟨x - 2, by omega⟩
        exact Nat.primeFactorsList_add_two m
      by_cases hdx : Nat.minFac x = x
      · rw [if_pos hdx]
        have hxp : Nat.Prime x := Nat.prime_def_minFac.mpr ⟨hx, hdx⟩
        rw [Nat.primeFactorsList_prime hxp, hdx]
      · rw [if_neg hdx, hpfl]
        congr 1
        have hmul := Nat.mul_div_cancel' hdvd
        have hlt : x / Nat.minFac x < x := Nat.div_lt_self (by omega) hdp.one_lt
        have h0 : x / Nat.minFac x ≠ 0 := by
          intro h
          rw [h, mul_zero] at hmul
          omega
        have h1 : x / Nat.minFac x ≠ 1 := by
          intro h
          rw [h, mul_one] at hmul
          exact hdx hmul
        have h2d : 2 ≤ x / Nat.minFac x := by
          rcases hv : x / Nat.minFac x with _ | v
          · exact absurd hv h0
          · rcases v with _ | w
            · exact absurd hv h1
            · omega
        exact ih _ hlt h2d f (by omega)

/-! ### stripLoop and dedupConsecutive -/

theorem stripLoop_spec (d : Nat) (hd : 2 ≤ d) :
    ∀ x, 1 ≤ x → ∀ fuel, x ≤ fuel →
      ∃ k, x = d ^ k * stripLoop d x fuel ∧ ¬ d ∣ stripLoop d x fuel ∧
        1 ≤ stripLoop d x fuel := by
  intro x
  induction x using Nat.strong_induction_on with
  | _ x ih =>
      intro hx fuel hfuel
      obtain ⟨f, rfl⟩ : ∃ f, fuel = f + 1 := ⟨fuel - 1, by omega⟩
      rw [stripLoop]
      by_cases hm : x % d = 0
      · rw [if_pos hm]
        have hdvd : d ∣ x := Nat.dvd_of_mod_eq_zero hm
        have hmul := Nat.mul_div_cancel' hdvd
        have hlt : x / d < x := Nat.div_lt_self (by omega) (by omega)
        have h1 : 1 ≤ x / d :=
          (Nat.one_le_div_iff (by omega)).mpr (Nat.le_of_dvd (by omega) hdvd)
        obtain ⟨k, hk, hnd, hpos⟩ := ih (x / d) hlt h1 f (by omega)
        refine ⟨k + 1, ?_, hnd, hpos⟩
        calc x = d * (x / d) := hmul.symm
          _ = d * (d ^ k * stripLoop d (x / d) f) := by rw [← hk]
          _ = d ^ (k + 1) * stripLoop d (x / d) f := by ring
      · rw [if_neg hm]
        exact ⟨0, by ring, fun hdd => hm (Nat.mod_eq_zero_of_dvd hdd), hx⟩

theorem primeFactorsList_pow_mul (d : Nat) (hd : Nat.Prime d) :
    ∀ k y, 1 ≤ y → (∀ p, Nat.Prime p → p ∣ y → d < p) →
      Nat.primeFactorsList (d ^ k * y) =
        List.replicate k d ++ Nat.primeFactorsList y := by
  intro k
  induction k with
  | zero => intro y _ _; simp
  | succ k ih =>
      intro y hy hbig
      have hd2 := hd.two_le
      have hdvd : d ∣ d ^ (k + 1) * y :=
        Dvd.dvd.mul_right (dvd_pow_self d (Nat.succ_ne_zero k)) y
      have hm2 : 2 ≤ d ^ (k + 1) * y := by
        have h1 : d ≤ d ^ (k + 1) := Nat.le_self_pow (Nat.succ_ne_zero k) d
        have h2 : d ^ (k + 1) ≤ d ^ (k + 1) * y := Nat.le_mul_of_pos_right _ (by omega)
        omega
      have hmf : (d ^ (k + 1) * y).minFac = d := by
        have hle : (d ^ (k + 1) * y).minFac ≤ d := Nat.minFac_le_of_dvd hd2 hdvd
        have hp : Nat.Prime (d ^ (k + 1) * y).minFac := Nat.minFac_prime (by omega)
        rcases hp.dvd_mul.mp (Nat.minFac_dvd _) with h | h
        · have hdd := hp.dvd_of_dvd_pow h
          rcases (Nat.dvd_prime hd).mp hdd with h1 | h1
          · exact absurd h1 hp.ne_one
          · exact h1
        · have := hbig _ hp h
          omega
      have hunfold : Nat.primeFactorsList (d ^ (k + 1) * y) =
          (d ^ (k + 1) * y).minFac ::
            Nat.primeFactorsList (d ^ (k + 1) * y / (d ^ (k + 1) * y).minFac) := by
        obtain ⟨m, hm⟩ : ∃ m, d ^ (k + 1) * y = m + 2 := ⟨d ^ (k + 1) * y - 2, by omega⟩
        rw [hm]
        exact Nat.primeFactorsList_add_two m
      rw [hunfold, hmf]
      have hdiv : d ^ (k + 1) * y / d = d ^ k * y := by
        rw [pow_succ, mul_comm (d ^ k) d, mul_assoc]
        exact Nat.mul_div_cancel_left _ (by omega)
      rw [hdiv, ih y hy hbig, List.replicate_succ]
      rfl

theorem dedupConsecutive_replicate_append (d : Nat) :
    ∀ k (l : List Nat), 1 ≤ k → (∀ b, l.head? = some b → b ≠ d) →
      dedupConsecutive (List.replicate k d ++ l) = d :: dedupConsecutive l := by
  intro k
  induction k with
  | zero => intro l h0 _; omega
  | succ k ih =>
      intro l _ hhead
      cases k with
      | zero =>
          cases l with
          | nil => rfl
          | cons b t =>
              have hbd : b ≠ d := hhead b rfl
              show dedupConsecutive (d :: b :: t) = d :: dedupConsecutive (b :: t)
              rw [dedupConsecutive]
              rw [if_neg (fun h => hbd h.symm)]
      | succ j =>
          show dedupConsecutive (d :: d :: (List.replicate j d ++ l)) =
            d :: dedupConsecutive l
          rw [dedupConsecutive]
          rw [if_pos rfl]
          exact ih l (by omega) hhead

theorem mem_dedupConsecutive : ∀ (l : List Nat) (a : Nat),
    a ∈ dedupConsecutive l ↔ a ∈ l := by
  intro l
  induction l with
  | nil => intro a; simp [dedupConsecutive]
  | cons b t ih =>
      intro a
      cases t with
      | nil => simp [dedupConsecutive]
      | cons c u =>
          rw [dedupConsecutive]
          by_cases hbc : b = c
          · rw [if_pos hbc]
            rw [ih a]
            subst hbc
            simp [List.mem_cons]
          · rw [if_neg hbc]
            simp only [List.mem_cons, ih a]

theorem sorted_dedupConsecutive : ∀ (l : List Nat), List.Sorted (· ≤ ·) l →
    List.Sorted (· < ·) (dedupConsecutive l) := by
  intro l
  induction l with
  | nil => intro _; simp [dedupConsecutive]
  | cons b t ih =>
      intro hs
      rw [List.sorted_cons] at hs
      cases t with
      | nil => simp [dedupConsecutive]
      | cons c u =>
          rw [dedupConsecutive]
          by_cases hbc : b = c
          · rw [if_pos hbc]
            exact ih hs.2
          · rw [if_neg hbc]
            rw [List.sorted_cons]
            refine ⟨?_, ih hs.2⟩
            intro z hz
            have hzmem : z ∈ c :: u := (mem_dedupConsecutive (c :: u) z).mp hz
            have hbc' : b < c := lt_of_le_of_ne (hs.1 c (by simp)) hbc
            rcases List.mem_cons.mp hzmem with rfl | hzu
            · exact hbc'
            · have hs2 := hs.2
              rw [List.sorted_cons] at hs2
              have hcz : c ≤ z := hs2.1 z hzu
              omega

theorem factorsUniqueLoop_eq :
    ∀ x, 2 ≤ x → ∀ fuel, x ≤ fuel →
      factorsUniqueLoop x fuel = dedupConsecutive (Nat.primeFactorsList x) := by
  intro x
  induction x using Nat.strong_induction_on with
  | _ x ih =>
      intro hx fuel hfuel
      obtain ⟨f, rfl⟩ : ∃ f, fuel = f + 1 := ⟨fuel - 1, by omega⟩
      simp only [factorsUniqueLoop]
      rw [firstfac_eq_minFac]
      have hne1 : x ≠ 1 := by omega
      have hdp := Nat.minFac_prime hne1
      have hd2 := hdp.two_le
      by_cases hdx : Nat.minFac x = x
      · rw [if_pos hdx]
        have hxp : Nat.Prime x := Nat.prime_def_minFac.mpr ⟨hx, hdx⟩
        rw [Nat.primeFactorsList_prime hxp, hdx]
        rfl
      · rw [if_neg hdx]
        obtain ⟨k, hk, hnd, hy1⟩ :=
          stripLoop_spec (Nat.minFac x) hd2 x (by omega) x (le_refl x)
        set y := stripLoop (Nat.minFac x) x x with hy
        have hk1 : 1 ≤ k := by
          by_contra hc
          push_neg at hc
          have hk0 : k = 0 := by omega
          rw [hk0, pow_zero, one_mul] at hk
          exact hnd (hk ▸ Nat.minFac_dvd x)
        have hbig : ∀ p, Nat.Prime p → p ∣ y → Nat.minFac x < p := by
          intro p hp hpy
          have hpx : p ∣ x := hk ▸ Dvd.dvd.mul_left hpy (Nat.minFac x ^ k)
          have hge := Nat.minFac_le_of_dvd hp.two_le hpx
          have hne : p ≠ Nat.minFac x := by
            rintro rfl
            exact hnd hpy
          omega
        have hpfl : Nat.primeFactorsList x =
            List.replicate k (Nat.minFac x) ++ Nat.primeFactorsList y := by
          conv_lhs => rw [hk]
          exact primeFactorsList_pow_mul _ hdp k y hy1 hbig
        have hhead : ∀ b, (Nat.primeFactorsList y).head? = some b →
            b ≠ Nat.minFac x := by
          intro b hb
          cases hl : Nat.primeFactorsList y with
          | nil => rw [hl] at hb; exact absurd hb (by simp)
          | cons c u =>
              rw [hl] at hb
              have hcb : c = b := Option.some_inj.mp hb
              have hbmem : b ∈ Nat.primeFactorsList y := by
                rw [hl, ← hcb]
                simp
              have hbp := Nat.prime_of_mem_primeFactorsList hbmem
              have hbd : b ∣ y :=
                ((Nat.mem_primeFactorsList (by omega)).mp hbmem).2
              have := hbig b hbp hbd
              omega
        rw [hpfl, dedupConsecutive_replicate_append _ k _ hk1 hhead]
        by_cases hy' : y = 1
        · rw [if_pos hy', hy']
          simp [Nat.primeFactorsList_one, dedupConsecutive]
        · rw [if_neg hy']
          have hy2 : 2 ≤ y := by omega
          have hylt : y < x := by
            have hd_pow : 2 ≤ Nat.minFac x ^ k :=
              le_trans hd2 (Nat.le_self_pow (by omega) _)
            calc y < 2 * y := by omega
              _ ≤ Nat.minFac x ^ k * y := Nat.mul_le_mul_right y hd_pow
              _ = x := hk.symm
          rw [ih y hylt hy2 f (by omega)]

/-! ### Claims C4, C5, C6, C7 -/

/-- C5: for every x ≥ 2, `firstfac(x)` is the smallest integer greater than 1
dividing x (checking 2, then odd candidates while their square is at most x),
and equals x itself exactly when x is prime. -/
theorem C5_firstfac_smallest (x : Nat) (hx : 2 ≤ x) :
    1 < firstfac x ∧ firstfac x ∣ x ∧
    (∀ d, 1 < d → d ∣ x → firstfac x ≤ d) ∧
    (firstfac x = x ↔ Nat.Prime x) := by
  rw [firstfac_eq_minFac]
  have hne : x ≠ 1 := by omega
  refine ⟨(Nat.minFac_prime hne).one_lt, Nat.minFac_dvd x, ?_, ?_⟩
  · intro d hd hdvd
    exact Nat.minFac_le_of_dvd hd hdvd
  · constructor
    · intro h
      exact Nat.prime_def_minFac.mpr ⟨hx, h⟩
    · intro h
      exact Nat.Prime.minFac_eq h

theorem C5_firstfac_smallest_witness :
    1 < firstfac 9 ∧ firstfac 9 ∣ 9 ∧
    (∀ d, 1 < d → d ∣ 9 → firstfac 9 ≤ d) ∧
    (firstfac 9 = 9 ↔ Nat.Prime 9) :=
  C5_firstfac_smallest 9 (by decide)

/-- C7: `is_prime(n)` is true exactly when n is prime, equivalently exactly
when n > 1 and no d with 1 < d and d² ≤ n divides n; it is false for every
n ≤ 1 and for every composite n. -/
theorem C7_is_prime_iff (n : Nat) :
    (is_prime n = true ↔ Nat.Prime n) ∧
    (is_prime n = true ↔ 1 < n ∧ ∀ d, 1 < d → d * d ≤ n → ¬ d ∣ n) := by
  have h1 : is_prime n = true ↔ Nat.Prime n := by
    rw [is_prime]
    simp only [Bool.and_eq_true, decide_eq_true_eq]
    rw [firstfac_eq_minFac]
    constructor
    · rintro ⟨hl, he⟩
      exact Nat.prime_def_minFac.mpr ⟨hl, he⟩
    · intro hp
      exact ⟨hp.one_lt, hp.minFac_eq⟩
  refine ⟨h1, h1.trans ?_⟩
  rw [Nat.prime_def_le_sqrt]
  constructor
  · rintro ⟨h2, hs⟩
    exact ⟨h2, fun d hd hdd => hs d hd (Nat.le_sqrt.mpr hdd)⟩
  · rintro ⟨h2, hs⟩
    exact ⟨h2, fun m hm hms => hs m hm (Nat.le_sqrt.mp hms)⟩

/-- C4: for every x > 1, `factors(x)` is a non-decreasing sequence of primes
whose product is x; for x = 0 and x = 1 it is empty. -/
theorem C4_factors_prod :
    (∀ x, 1 < x → (factors x).prod = x ∧ List.Sorted (· ≤ ·) (factors x) ∧
      ∀ p ∈ factors x, Nat.Prime p) ∧
    factors 0 = [] ∧ factors 1 = [] := by
  refine ⟨?_, rfl, rfl⟩
  intro x hx
  have he : factors x = Nat.primeFactorsList x := by
    rw [factors, if_neg (by omega)]
    exact factorsLoop_eq_primeFactorsList x hx x (le_refl x)
  rw [he]
  exact ⟨Nat.prod_primeFactorsList (by omega), Nat.primeFactorsList_sorted x,
    fun p hp => Nat.prime_of_mem_primeFactorsList hp⟩

theorem C4_factors_prod_witness :
    (factors 12).prod = 12 ∧ List.Sorted (· ≤ ·) (factors 12) ∧
    ∀ p ∈ factors 12, Nat.Prime p :=
  C4_factors_prod.1 12 (by decide)

/-- C6: `factors_unique(x)` equals `factors(x)` with consecutive duplicates
removed (the semantics of `Vec::dedup`); each distinct prime factor of x ≥ 1
appears exactly once, in strictly increasing order, and both functions return
the empty sequence on 0 and 1. -/
theorem C6_factors_unique_dedup :
    (∀ x, factors_unique x = dedupConsecutive (factors x)) ∧
    (∀ x, 1 ≤ x → List.Sorted (· < ·) (factors_unique x) ∧
      ∀ p, p ∈ factors_unique x ↔ Nat.Prime p ∧ p ∣ x) ∧
    factors 0 = [] ∧ factors 1 = [] ∧
    factors_unique 0 = [] ∧ factors_unique 1 = [] := by
  have hmain : ∀ x, factors_unique x = dedupConsecutive (factors x) := by
    intro x
    by_cases hx : x ≤ 1
    · rw [factors_unique, factors, if_pos hx, if_pos hx]
      rfl
    · push_neg at hx
      rw [factors_unique, factors, if_neg (by omega), if_neg (by omega)]
      rw [factorsUniqueLoop_eq x (by omega) x (le_refl x),
        factorsLoop_eq_primeFactorsList x (by omega) x (le_refl x)]
  refine ⟨hmain, ?_, rfl, rfl, rfl, rfl⟩
  intro x hx1
  by_cases hx : x ≤ 1
  · have hxe : x = 1 := by omega
    subst hxe
    constructor
    · show List.Sorted (· < ·) (factors_unique 1)
      rw [hmain 1]
      simp [factors, dedupConsecutive]
    · intro p
      rw [hmain 1]
      show p ∈ dedupConsecutive (factors 1) ↔ _
      rw [show factors 1 = [] from rfl]
      constructor
      · intro hp
        exact absurd hp (by simp [dedupConsecutive])
      · rintro ⟨hp, hd⟩
        rw [Nat.dvd_one] at hd
        subst hd
        exact absurd hp Nat.not_prime_one
  · push_neg at hx
    have he : factors x = Nat.primeFactorsList x := by
      rw [factors, if_neg (by omega)]
      exact factorsLoop_eq_primeFactorsList x (by omega) x (le_refl x)
    constructor
    · rw [hmain x, he]
      exact sorted_dedupConsecutive _ (Nat.primeFactorsList_sorted x)
    · intro p
      rw [hmain x, mem_dedupConsecutive, he]
      rw [Nat.mem_primeFactorsList (by omega)]

theorem C6_factors_unique_dedup_witness :
    List.Sorted (· < ·) (factors_unique 12) ∧
    ∀ p, p ∈ factors_unique 12 ↔ Nat.Prime p ∧ p ∣ 12 :=
  C6_factors_unique_dedup.2.1 12 (by decide)

/-! ### Concrete evaluation of find(1000) / find(1009), in bounded chunks -/

/-- The first 22 primes (cache contents used in the concrete C3 facts). -/
def cacheLen22 : List Nat :=
  [2, 3, 5, 7, 11, 13, 17, 19, 23, 29, 31, 37, 41, 43, 47, 53, 59, 61, 67, 71, 73, 79]

/-- The first 42 primes (cache contents used in the concrete C3 facts). -/
def cacheLen42 : List Nat :=
  [2, 3, 5, 7, 11, 13, 17, 19, 23, 29, 31, 37, 41, 43, 47, 53, 59, 61, 67, 71, 73, 79, 83, 89, 97, 101, 103, 107, 109, 113, 127, 131, 137, 139, 149, 151, 157, 163, 167, 173, 179, 181]

/-- The first 62 primes (cache contents used in the concrete C3 facts). -/
def cacheLen62 : List Nat :=
  [2, 3, 5, 7, 11, 13, 17, 19, 23, 29, 31, 37, 41, 43, 47, 53, 59, 61, 67, 71, 73, 79, 83, 89, 97, 101, 103, 107, 109, 113, 127, 131, 137, 139, 149, 151, 157, 163, 167, 173, 179, 181, 191, 193, 197, 199, 211, 223, 227, 229, 233, 239, 241, 251, 257, 263, 269, 271, 277, 281, 283, 293]

/-- The first 82 primes (cache contents used in the concrete C3 facts). -/
def cacheLen82 : List Nat :=
  [2, 3, 5, 7, 11, 13, 17, 19, 23, 29, 31, 37, 41, 43, 47, 53, 59, 61, 67, 71, 73, 79, 83, 89, 97, 101, 103, 107, 109, 113, 127, 131, 137, 139, 149, 151, 157, 163, 167, 173, 179, 181, 191, 193, 197, 199, 211, 223, 227, 229, 233, 239, 241, 251, 257, 263, 269, 271, 277, 281, 283, 293, 307, 311, 313, 317, 331, 337, 347, 349, 353, 359, 367, 373, 379, 383, 389, 397, 401, 409, 419, 421]

/-- The first 102 primes (cache contents used in the concrete C3 facts). -/
def cacheLen102 : List Nat :=
  [2, 3, 5, 7, 11, 13, 17, 19, 23, 29, 31, 37, 41, 43, 47, 53, 59, 61, 67, 71, 73, 79, 83, 89, 97, 101, 103, 107, 109, 113, 127, 131, 137, 139, 149, 151, 157, 163, 167, 173, 179, 181, 191, 193, 197, 199, 211, 223, 227, 229, 233, 239, 241, 251, 257, 263, 269, 271, 277, 281, 283, 293, 307, 311, 313, 317, 331, 337, 347, 349, 353, 359, 367, 373, 379, 383, 389, 397, 401, 409, 419, 421, 431, 433, 439, 443, 449, 457, 461, 463, 467, 479, 487, 491, 499, 503, 509, 521, 523, 541, 547, 557]

/-- The first 122 primes (cache contents used in the concrete C3 facts). -/
def cacheLen122 : List Nat :=
  [2, 3, 5, 7, 11, 13, 17, 19, 23, 29, 31, 37, 41, 43, 47, 53, 59, 61, 67, 71, 73, 79, 83, 89, 97, 101, 103, 107, 109, 113, 127, 131, 137, 139, 149, 151, 157, 163, 167, 173, 179, 181, 191, 193, 197, 199, 211, 223, 227, 229, 233, 239, 241, 251, 257, 263, 269, 271, 277, 281, 283, 293, 307, 311, 313, 317, 331, 337, 347, 349, 353, 359, 367, 373, 379, 383, 389, 397, 401, 409, 419, 421, 431, 433, 439, 443, 449, 457, 461, 463, 467, 479, 487, 491, 499, 503, 509, 521, 523, 541, 547, 557, 563, 569, 571, 577, 587, 593, 599, 601, 607, 613, 617, 619, 631, 641, 643, 647, 653, 659, 661, 673]

/-- The first 142 primes (cache contents used in the concrete C3 facts). -/
def cacheLen142 : List Nat :=
  [2, 3, 5, 7, 11, 13, 17, 19, 23, 29, 31, 37, 41, 43, 47, 53, 59, 61, 67, 71, 73, 79, 83, 89, 97, 101, 103, 107, 109, 113, 127, 131, 137, 139, 149, 151, 157, 163, 167, 173, 179, 181, 191, 193, 197, 199, 211, 223, 227, 229, 233, 239, 241, 251, 257, 263, 269, 271, 277, 281, 283, 293, 307, 311, 313, 317, 331, 337, 347, 349, 353, 359, 367, 373, 379, 383, 389, 397, 401, 409, 419, 421, 431, 433, 439, 443, 449, 457, 461, 463, 467, 479, 487, 491, 499, 503, 509, 521, 523, 541, 547, 557, 563, 569, 571, 577, 587, 593, 599, 601, 607, 613, 617, 619, 631, 641, 643, 647, 653, 659, 661, 673, 677, 683, 691, 701, 709, 719, 727, 733, 739, 743, 751, 757, 761, 769, 773, 787, 797, 809, 811, 821]

/-- The first 162 primes (cache contents used in the concrete C3 facts). -/
def cacheLen162 : List Nat :=
  [2, 3, 5, 7, 11, 13, 17, 19, 23, 29, 31, 37, 41, 43, 47, 53, 59, 61, 67, 71, 73, 79, 83, 89, 97, 101, 103, 107, 109, 113, 127, 131, 137, 139, 149, 151, 157, 163, 167, 173, 179, 181, 191, 193, 197, 199, 211, 223, 227, 229, 233, 239, 241, 251, 257, 263, 269, 271, 277, 281, 283, 293, 307, 311, 313, 317, 331, 337, 347, 349, 353, 359, 367, 373, 379, 383, 389, 397, 401, 409, 419, 421, 431, 433, 439, 443, 449, 457, 461, 463, 467, 479, 487, 491, 499, 503, 509, 521, 523, 541, 547, 557, 563, 569, 571, 577, 587, 593, 599, 601, 607, 613, 617, 619, 631, 641, 643, 647, 653, 659, 661, 673, 677, 683, 691, 701, 709, 719, 727, 733, 739, 743, 751, 757, 761, 769, 773, 787, 797, 809, 811, 821, 823, 827, 829, 839, 853, 857, 859, 863, 877, 881, 883, 887, 907, 911, 919, 929, 937, 941, 947, 953]

/-- The first 169 primes (cache contents used in the concrete C3 facts). -/
def cache1009 : List Nat :=
  [2, 3, 5, 7, 11, 13, 17, 19, 23, 29, 31, 37, 41, 43, 47, 53, 59, 61, 67, 71, 73, 79, 83, 89, 97, 101, 103, 107, 109, 113, 127, 131, 137, 139, 149, 151, 157, 163, 167, 173, 179, 181, 191, 193, 197, 199, 211, 223, 227, 229, 233, 239, 241, 251, 257, 263, 269, 271, 277, 281, 283, 293, 307, 311, 313, 317, 331, 337, 347, 349, 353, 359, 367, 373, 379, 383, 389, 397, 401, 409, 419, 421, 431, 433, 439, 443, 449, 457, 461, 463, 467, 479, 487, 491, 499, 503, 509, 521, 523, 541, 547, 557, 563, 569, 571, 577, 587, 593, 599, 601, 607, 613, 617, 619, 631, 641, 643, 647, 653, 659, 661, 673, 677, 683, 691, 701, 709, 719, 727, 733, 739, 743, 751, 757, 761, 769, 773, 787, 797, 809, 811, 821, 823, 827, 829, 839, 853, 857, 859, 863, 877, 881, 883, 887, 907, 911, 919, 929, 937, 941, 947, 953, 967, 971, 977, 983, 991, 997, 1009]

theorem expandTimes_succ (ef k : Nat) (td : TrialDivision) :
    PrimeSet.expandTimes ef td (k + 1) =
      (td.expand ef).bind (fun t => PrimeSet.expandTimes ef t k) := by
  cases hg : td.expand ef with
  | none => rw [PrimeSet.expandTimes, hg]; rfl
  | some t => rw [PrimeSet.expandTimes, hg]; rfl

theorem expandTimes_append (ef : Nat) :
    ∀ (a b : Nat) (td : TrialDivision),
      PrimeSet.expandTimes ef td (a + b) =
        (PrimeSet.expandTimes ef td a).bind (fun t => PrimeSet.expandTimes ef t b) := by
  intro a
  induction a with
  | zero => intro b td; rw [Nat.zero_add]; rfl
  | succ a ih =>
      intro b td
      have hrw : a + 1 + b = (a + b) + 1 := by omega
      rw [hrw, expandTimes_succ, expandTimes_succ]
      cases td.expand ef with
      | none => rfl
      | some t => exact ih b t

theorem expandTimes_add (ef a b : Nat) (td td₁ : TrialDivision)
    (h : PrimeSet.expandTimes ef td a = some td₁) :
    PrimeSet.expandTimes ef td (a + b) = PrimeSet.expandTimes ef td₁ b := by
  rw [expandTimes_append ef a b td, h]
  rfl

theorem findLoop_exit {n ef wf : Nat} {td : TrialDivision}
    (h : ¬ td.list.getLastD 0 < n) : PrimeSet.findLoop n ef td wf = some td := by
  cases wf with
  | zero => rw [PrimeSet.findLoop, if_neg h]
  | succ w => rw [PrimeSet.findLoop, if_neg h]

theorem findLoop_of_expandTimes {n ef : Nat} :
    ∀ (k : Nat) (td td' : TrialDivision) (wf : Nat), SeededInv td.lst → k ≤ wf →
      PrimeSet.expandTimes ef td k = some td' →
      n ≤ td'.lst.getLastD 0 →
      (1 ≤ k → td'.lst.getD (td'.lst.length - 2) 0 < n) →
      PrimeSet.findLoop n ef td wf = some td' := by
  intro k
  induction k with
  | zero =>
      intro td td' wf hinv _ hchain hn _
      have he : td = td' := Option.some_inj.mp hchain
      subst he
      exact findLoop_exit (by rw [TrialDivision.list_eq]; omega)
  | succ k ih =>
      intro td td' wf hinv hkw hchain hn hpen
      obtain ⟨hinv', hlen', ext, hext⟩ := expandTimes_preserves _ td td' hinv hchain
      have hlenpos : 0 < td.lst.length := List.length_pos.mpr hinv.1.1
      have hlast_lt : td.lst.getLastD 0 < n := by
        have hj : td.lst.length - 1 < td.lst.length := by omega
        have hgetj : td'.lst.getD (td.lst.length - 1) 0 = td.lst.getLastD 0 := by
          rw [hext, List.getD_append td.lst ext 0 _ hj, getD_last_index td.lst hinv.1.1]
        have hmono : td'.lst.getD (td.lst.length - 1) 0 ≤
            td'.lst.getD (td'.lst.length - 2) 0 :=
          sorted_getD_le td'.lst hinv'.1.2.1 _ _ (by omega) (by omega)
        have hp := hpen (by omega)
        omega
      rw [PrimeSet.expandTimes] at hchain
      cases hg : td.expand ef with
      | none => rw [hg] at hchain; exact absurd hchain (by simp)
      | some td₁ =>
          rw [hg] at hchain
          obtain ⟨w, rfl⟩ : ∃ w, wf = w + 1 := ⟨wf - 1, by omega⟩
          rw [PrimeSet.findLoop, if_pos (by simpa using hlast_lt), hg]
          exact ih td₁ td' w (expand_preserves_seeded hinv hg) (by omega) hchain hn
            (fun _ => hpen (by omega))

set_option maxRecDepth 100000

theorem expandTimes_chain_1000 :
    PrimeSet.expandTimes 100 TrialDivision.new 167 = some (TrialDivision.mk cache1009) := by
  have h1 : PrimeSet.expandTimes 100 TrialDivision.new 20 =
      some (TrialDivision.mk cacheLen22) := by decide
  have h2 : PrimeSet.expandTimes 100 (TrialDivision.mk cacheLen22) 20 =
      some (TrialDivision.mk cacheLen42) := by decide
  have h3 : PrimeSet.expandTimes 100 (TrialDivision.mk cacheLen42) 20 =
      some (TrialDivision.mk cacheLen62) := by decide
  have h4 : PrimeSet.expandTimes 100 (TrialDivision.mk cacheLen62) 20 =
      some (TrialDivision.mk cacheLen82) := by decide
  have h5 : PrimeSet.expandTimes 100 (TrialDivision.mk cacheLen82) 20 =
      some (TrialDivision.mk cacheLen102) := by decide
  have h6 : PrimeSet.expandTimes 100 (TrialDivision.mk cacheLen102) 20 =
      some (TrialDivision.mk cacheLen122) := by decide
  have h7 : PrimeSet.expandTimes 100 (TrialDivision.mk cacheLen122) 20 =
      some (TrialDivision.mk cacheLen142) := by decide
  have h8 : PrimeSet.expandTimes 100 (TrialDivision.mk cacheLen142) 20 =
      some (TrialDivision.mk cacheLen162) := by decide
  have h9 : PrimeSet.expandTimes 100 (TrialDivision.mk cacheLen162) 7 =
      some (TrialDivision.mk cache1009) := by decide
  rw [show (167 : Nat) = 20 + 147 from rfl, expandTimes_add 100 20 147 _ _ h1]
  rw [show (147 : Nat) = 20 + 127 from rfl, expandTimes_add 100 20 127 _ _ h2]
  rw [show (127 : Nat) = 20 + 107 from rfl, expandTimes_add 100 20 107 _ _ h3]
  rw [show (107 : Nat) = 20 + 87 from rfl, expandTimes_add 100 20 87 _ _ h4]
  rw [show (87 : Nat) = 20 + 67 from rfl, expandTimes_add 100 20 67 _ _ h5]
  rw [show (67 : Nat) = 20 + 47 from rfl, expandTimes_add 100 20 47 _ _ h6]
  rw [show (47 : Nat) = 20 + 27 from rfl, expandTimes_add 100 20 27 _ _ h7]
  rw [show (27 : Nat) = 20 + 7 from rfl, expandTimes_add 100 20 7 _ _ h8]
  exact h9

theorem find_new_1000 :
    PrimeSet.find TrialDivision.new 1000 100 200 =
      some (TrialDivision.mk cache1009, some (168, 1009)) := by
  have hloop : PrimeSet.findLoop 1000 100 TrialDivision.new 200 =
      some (TrialDivision.mk cache1009) :=
    findLoop_of_expandTimes 167 TrialDivision.new _ 200 seededInv_new (by omega)
      expandTimes_chain_1000 (by decide) (fun _ => by decide)
  have hv : PrimeSet.find_vec (TrialDivision.mk cache1009) 1000 = some (168, 1009) := by
    decide
  rw [PrimeSet.find, hloop, Option.map_some', hv]

theorem find_new_1009 :
    PrimeSet.find TrialDivision.new 1009 100 200 =
      some (TrialDivision.mk cache1009, some (168, 1009)) := by
  have hloop : PrimeSet.findLoop 1009 100 TrialDivision.new 200 =
      some (TrialDivision.mk cache1009) :=
    findLoop_of_expandTimes 167 TrialDivision.new _ 200 seededInv_new (by omega)
      expandTimes_chain_1000 (by decide) (fun _ => by decide)
  have hv : PrimeSet.find_vec (TrialDivision.mk cache1009) 1009 = some (168, 1009) := by
    decide
  rw [PrimeSet.find, hloop, Option.map_some', hv]

/-! ### Binary search correctness -/

theorem findVecExit (lst : List Nat) (n : Nat) (hne : lst ≠ [])
    (hn : n ≤ lst.getLastD 0) (base : Nat)
    (hlow : ∀ j, j < base → lst.getD j 0 < n)
    (hhigh : ∀ j, base ≤ j → j < lst.length → n < lst.getD j 0) :
    base < lst.length ∧ n ≤ lst.getD base 0 := by
  have hblt : base < lst.length := by
    by_contra hc
    push_neg at hc
    have hll : 0 < lst.length := List.length_pos.mpr hne
    have h := hlow (lst.length - 1) (by omega)
    rw [getD_last_index lst hne] at h
    omega
  exact ⟨hblt, le_of_lt (hhigh base (le_refl _) hblt)⟩

theorem findVecLoop_spec (lst : List Nat) (n : Nat)
    (hs : List.Sorted (· < ·) lst) (hne : lst ≠ []) (hn : n ≤ lst.getLastD 0) :
    ∀ fuel lim base, lim ≤ fuel → base + lim ≤ lst.length →
      (∀ j, j < base → lst.getD j 0 < n) →
      (∀ j, base + lim ≤ j → j < lst.length → n < lst.getD j 0) →
      (PrimeSet.findVecLoop lst n base lim fuel).1 < lst.length ∧
      (PrimeSet.findVecLoop lst n base lim fuel).2 =
        lst.getD (PrimeSet.findVecLoop lst n base lim fuel).1 0 ∧
      n ≤ (PrimeSet.findVecLoop lst n base lim fuel).2 ∧
      ∀ j, j < (PrimeSet.findVecLoop lst n base lim fuel).1 → lst.getD j 0 < n := by
  intro fuel
  induction fuel with
  | zero =>
      intro lim base hlf hbl hlow hhigh
      have hlim : lim = 0 := by omega
      subst hlim
      obtain ⟨h1, h2⟩ := findVecExit lst n hne hn base hlow
        (fun j hj1 hj2 => hhigh j (by omega) hj2)
      exact ⟨h1, rfl, h2, hlow⟩
  | succ fuel ih =>
      intro lim base hlf hbl hlow hhigh
      by_cases h0 : lim = 0
      · subst h0
        obtain ⟨h1, h2⟩ := findVecExit lst n hne hn base hlow
          (fun j hj1 hj2 => hhigh j (by omega) hj2)
        exact ⟨h1, rfl, h2, hlow⟩
      · simp only [PrimeSet.findVecLoop]
        rw [if_neg h0]
        have hidxlt : base + lim / 2 < lst.length := by omega
        by_cases he : lst.getD (base + lim / 2) 0 = n
        · rw [if_pos he]
          refine ⟨hidxlt, rfl, le_of_eq he.symm, ?_⟩
          intro j hj
          calc lst.getD j 0 < lst.getD (base + lim / 2) 0 :=
                sorted_getD_lt lst hs j _ hj hidxlt
            _ = n := he
        · rw [if_neg he]
          by_cases hlt : lst.getD (base + lim / 2) 0 < n
          · rw [if_pos hlt]
            apply ih ((lim - 1) / 2) (base + lim / 2 + 1) (by omega) (by omega)
            · intro j hj
              have hji : j ≤ base + lim / 2 := by omega
              calc lst.getD j 0 ≤ lst.getD (base + lim / 2) 0 :=
                    sorted_getD_le lst hs j _ hji hidxlt
                _ < n := hlt
            · intro j hj1 hj2
              exact hhigh j (by omega) hj2
          · rw [if_neg hlt]
            apply ih (lim / 2) base (by omega) (by omega) hlow
            intro j hj1 hj2
            have hnj : n < lst.getD (base + lim / 2) 0 := by omega
            calc n < lst.getD (base + lim / 2) 0 := hnj
              _ ≤ lst.getD j 0 := sorted_getD_le lst hs _ j (by omega) hj2

theorem find_vec_none_iff (td : TrialDivision) (n : Nat) :
    PrimeSet.find_vec td n = none ↔ td.lst.getLastD 0 < n := by
  rw [PrimeSet.find_vec]
  by_cases h : td.list.getLastD 0 < n
  · rw [if_pos h]
    exact iff_of_true rfl (by simpa using h)
  · rw [if_neg h]
    exact iff_of_false (by simp) (by simpa using h)

theorem find_vec_spec {td : TrialDivision} (hinv : CacheInv td.lst) (n : Nat)
    (hle : n ≤ td.lst.getLastD 0) :
    ∃ idx p, PrimeSet.find_vec td n = some (idx, p) ∧
      idx < td.lst.length ∧ td.lst.getD idx 0 = p ∧ p ∈ td.lst ∧
      Nat.Prime p ∧ n ≤ p ∧ (∀ q ∈ td.lst, n ≤ q → p ≤ q) ∧
      ∀ j, j < idx → td.lst.getD j 0 < n := by
  have hne := hinv.1
  obtain ⟨h1, h2, h3, h4⟩ := findVecLoop_spec td.lst n hinv.2.1 hne hle
    td.lst.length td.lst.length 0 (le_refl _) (by omega)
    (fun j hj => absurd hj (by omega))
    (fun j hj1 hj2 => absurd hj2 (by omega))
  refine ⟨(PrimeSet.findVecLoop td.lst n 0 td.lst.length td.lst.length).1,
    (PrimeSet.findVecLoop td.lst n 0 td.lst.length td.lst.length).2, ?_, h1, h2.symm, ?_, ?_, h3,
    ?_, h4⟩
  · rw [PrimeSet.find_vec, if_neg (by simpa using not_lt.mpr hle)]
    rfl
  · rw [h2]
    exact getD_mem td.lst _ h1
  · exact hinv.mem_prime _ (by rw [h2]; exact getD_mem td.lst _ h1)
  · intro q hq hnq
    obtain ⟨i, hi, hgi⟩ := List.mem_iff_getElem.mp hq
    rw [← List.getD_eq_getElem td.lst 0 hi] at hgi
    by_cases hcmp : i < (PrimeSet.findVecLoop td.lst n 0 td.lst.length td.lst.length).1
    · have := h4 i hcmp
      omega
    · rw [h2, ← hgi]
      exact sorted_getD_le td.lst hinv.2.1 _ i (by omega) hi

theorem find_spec {td : TrialDivision} (hinv : SeededInv td.lst) (n : Nat) :
    ∃ ef wf td' idx p, PrimeSet.find td n ef wf = some (td', some (idx, p)) ∧
      SeededInv td'.lst ∧ n ≤ td'.lst.getLastD 0 ∧
      idx < td'.lst.length ∧ td'.lst.getD idx 0 = p ∧ Nat.Prime p ∧ n ≤ p ∧
      (∀ q, Nat.Prime q → n ≤ q → p ≤ q) ∧ ∃ ext, td'.lst = td.lst ++ ext := by
  obtain ⟨ef, wf, td', hf, hinv', hn', hext⟩ :=
    findLoop_terminates (n - td.lst.getLastD 0) td hinv (le_refl _)
  obtain ⟨idx, p, hv, hidx, hgetd, hmem, hp, hnp, hmin, hlow⟩ :=
    find_vec_spec hinv'.1 n hn'
  refine ⟨ef, wf, td', idx, p, ?_, hinv', hn', hidx, hgetd, hp, hnp, ?_, hext⟩
  · rw [PrimeSet.find, hf, Option.map_some', hv]
  · intro q hq hnq
    by_cases hqle : q ≤ td'.lst.getLastD 0
    · exact hmin q ((hinv'.1.2.2 q).mpr ⟨hq, hqle⟩) hnq
    · push_neg at hqle
      have hple : p ≤ td'.lst.getLastD 0 := hinv'.1.mem_le_last p hmem
      omega

/-! ### Claims C3, C8, C9 -/

/-- C3: on a cache satisfying the invariant, `find_vec(n)` returns `None`
exactly when n exceeds the largest cached prime, and otherwise the smallest
cached prime ≥ n together with its 0-based index; `find(n)` first expands
until the last cached prime is at least n and then returns that same pair
(which is then the smallest prime ≥ n outright).  Concretely, on a fresh
generator `find_vec(1000)` is `None`, `find(1000)` and `find(1009)` both
return `(168, 1009)`, and after them the cache is the 169 primes up to
1009. -/
theorem C3_find_locator :
    (∀ (td : TrialDivision) (n : Nat), CacheInv td.lst →
      (PrimeSet.find_vec td n = none ↔ td.lst.getLastD 0 < n)) ∧
    (∀ (td : TrialDivision) (n : Nat), CacheInv td.lst →
      n ≤ td.lst.getLastD 0 →
      ∃ idx p, PrimeSet.find_vec td n = some (idx, p) ∧
        idx < td.lst.length ∧ td.lst.getD idx 0 = p ∧ p ∈ td.lst ∧
        Nat.Prime p ∧ n ≤ p ∧ (∀ q ∈ td.lst, n ≤ q → p ≤ q) ∧
        ∀ j, j < idx → td.lst.getD j 0 < n) ∧
    (∀ (td : TrialDivision) (n : Nat), SeededInv td.lst →
      ∃ ef wf td' idx p, PrimeSet.find td n ef wf = some (td', some (idx, p)) ∧
        SeededInv td'.lst ∧ n ≤ td'.lst.getLastD 0 ∧
        idx < td'.lst.length ∧ td'.lst.getD idx 0 = p ∧ Nat.Prime p ∧ n ≤ p ∧
        (∀ q, Nat.Prime q → n ≤ q → p ≤ q) ∧ ∃ ext, td'.lst = td.lst ++ ext) ∧
    PrimeSet.find_vec TrialDivision.new 1000 = none ∧
    PrimeSet.find TrialDivision.new 1000 100 200 =
      some (TrialDivision.mk cache1009, some (168, 1009)) ∧
    PrimeSet.find TrialDivision.new 1009 100 200 =
      some (TrialDivision.mk cache1009, some (168, 1009)) ∧
    cache1009.length = 169 ∧ cache1009.getLastD 0 = 1009 :=
  ⟨fun td n _ => find_vec_none_iff td n,
    fun td n hinv hle => find_vec_spec hinv n hle,
    fun td n hinv => find_spec hinv n,
    by decide, find_new_1000, find_new_1009, by decide, by decide⟩

theorem C3_find_locator_witness :
    ∃ idx p, PrimeSet.find_vec TrialDivision.new 3 = some (idx, p) ∧
      idx < TrialDivision.new.lst.length ∧
      TrialDivision.new.lst.getD idx 0 = p ∧ p ∈ TrialDivision.new.lst ∧
      Nat.Prime p ∧ 3 ≤ p ∧ (∀ q ∈ TrialDivision.new.lst, 3 ≤ q → p ≤ q) ∧
      ∀ j, j < idx → TrialDivision.new.lst.getD j 0 < 3 :=
  C3_find_locator.2.1 TrialDivision.new 3 cacheInv_new (by decide)

/-- C8: `get(index)` expands exactly `index + 1 - len` times when that is
positive (and zero times otherwise — the `expandTimes` count in the
definition), then returns the cache entry at `index`, which is prime; on
return the cache has `max (index + 1) len` entries, hence at least
`index + 1`. -/
theorem C8_get_nth (td : TrialDivision) (index : Nat) (hinv : SeededInv td.lst) :
    ∃ ef td' p, PrimeSet.get td index ef = some (td', p) ∧
      td'.lst.length = max (index + 1) td.lst.length ∧
      index + 1 ≤ td'.lst.length ∧
      td'.lst.getD index 0 = p ∧ Nat.Prime p ∧ SeededInv td'.lst ∧
      ∃ ext, td'.lst = td.lst ++ ext := by
  obtain ⟨ef, td', hf⟩ :=
    expandTimes_terminates (index + 1 - PrimeSet.len td) td hinv
  obtain ⟨hinv', hlen, ext, hext⟩ := expandTimes_preserves _ td td' hinv hf
  have hlen0 : PrimeSet.len td = td.lst.length := rfl
  have hlen' : td'.lst.length = max (index + 1) td.lst.length := by
    rw [hlen, hlen0]
    omega
  refine ⟨ef, td', td'.lst.getD index 0, ?_, hlen', by omega, rfl, ?_, hinv',
    ext, hext⟩
  · rw [PrimeSet.get, hf]
    rfl
  · exact hinv'.1.mem_prime _ (getD_mem td'.lst index (by omega))

theorem C8_get_nth_witness :
    ∃ ef td' p, PrimeSet.get TrialDivision.new 5 ef = some (td', p) ∧
      td'.lst.length = max (5 + 1) TrialDivision.new.lst.length ∧
      5 + 1 ≤ td'.lst.length ∧
      td'.lst.getD 5 0 = p ∧ Nat.Prime p ∧ SeededInv td'.lst ∧
      ∃ ext, td'.lst = TrialDivision.new.lst ++ ext :=
  C8_get_nth TrialDivision.new 5 seededInv_new

/-- C9: the iterator from `iter()` on a fresh generator yields the primes in
increasing order starting at 2 — its first 9 elements are exactly
[2, 3, 5, 7, 11, 13, 17, 19, 23]; `generator()` starts at the cache's current
size; and on any seeded cache a `next` call never returns `None`: it yields a
prime, which is strictly larger than the current last cached prime whenever
the cursor is past the cache (as it always is for a `generator()` iterator,
i.e. it yields only newly discovered primes). -/
theorem C9_iterators :
    iterTake 100 100 (PrimeSet.iter TrialDivision.new) 9 =
      some [2, 3, 5, 7, 11, 13, 17, 19, 23] ∧
    (∀ td : TrialDivision, PrimeSet.iter td = ⟨td, 0, true⟩ ∧
      PrimeSet.generator td = ⟨td, td.lst.length, true⟩) ∧
    (∀ (td : TrialDivision) (k : Nat), SeededInv td.lst →
      ∃ ef wf v td₂,
        PrimeSetIter.next ⟨td, k, true⟩ ef wf =
          some (some (v, ⟨td₂, k + 1, true⟩)) ∧
        Nat.Prime v ∧ SeededInv td₂.lst ∧
        (td.lst.length ≤ k → td.lst.getLastD 0 < v)) := by
  refine ⟨by decide, fun td => ⟨rfl, rfl⟩, ?_⟩
  intro td k hinv
  obtain ⟨ef, wf, v, td₂, hnext, hinv₂, hv, hp, hlen, hext, hfresh⟩ :=
    next_step hinv
  exact ⟨ef, wf, v, td₂, hnext, hp, hinv₂, hfresh⟩

theorem C7_is_prime_iff_witness : is_prime 7 = true :=
  (C7_is_prime_iff 7).1.mpr (by norm_num)

theorem C9_iterators_witness :
    ∃ ef wf v td₂,
      PrimeSetIter.next ⟨TrialDivision.new, 2, true⟩ ef wf =
        some (some (v, ⟨td₂, 2 + 1, true⟩)) ∧
      Nat.Prime v ∧ SeededInv td₂.lst ∧
      (TrialDivision.new.lst.length ≤ 2 → TrialDivision.new.lst.getLastD 0 < v) :=
  C9_iterators.2.2 TrialDivision.new 2 seededInv_new

end Primes
